import Mathlib

/-!
Verification of the GEOtoPy settings codec and patch engine, a shallow
embedding of `geotopy/__init__.py`.  Lines of text are modelled as
`List Char` over the ASCII fragment of the configuration format.  The
regular expressions `_comment_re` and `_setting_re` are embedded as the
deterministic scanners they denote under `re.match` semantics, the
builtins `int` and `str` on integers are embedded directly, and `float`
is kept abstract behind a `FloatModel` parameter since binary floating
point is outside the embedding.
-/

namespace GTP

/-- ASCII whitespace characters matched by the regex class for whitespace
in the source patterns: space, tab, newline, carriage return, vertical
tab and form feed. -/
def isSpaceA (c : Char) : Bool :=
  c.toNat = 32 || c.toNat = 9 || c.toNat = 10 || c.toNat = 13 ||
    c.toNat = 11 || c.toNat = 12

/-- ASCII uppercase letter, the regex class between A and Z used for the
first character of a keyword. -/
def isUpperA (c : Char) : Bool :=
  65 ≤ c.toNat && c.toNat ≤ 90

/-- ASCII decimal digit. -/
def isDigitA (c : Char) : Bool :=
  48 ≤ c.toNat && c.toNat ≤ 57

/-- ASCII word character matched by the word regex class: letters,
digits and underscore. -/
def isWordA (c : Char) : Bool :=
  isDigitA c || (65 ≤ c.toNat && c.toNat ≤ 90) ||
    (97 ≤ c.toNat && c.toNat ≤ 122) || c.toNat = 95

/-- Character distinct from newline, the class matched by the dot in the
source patterns. -/
def neNl (c : Char) : Bool := !decide (c = '\n')

/-- Strip ASCII whitespace from both ends, as the int builtin does before
reading digits. -/
def stripA (cs : List Char) : List Char :=
  ((cs.dropWhile isSpaceA).reverse.dropWhile isSpaceA).reverse

/-- Split on every occurrence of a separator character, keeping empty
pieces, as the split method does with an explicit separator. -/
def splitOnChar (sep : Char) : List Char → List (List Char)
  | [] => [[]]
  | c :: cs =>
    if c = sep then [] :: splitOnChar sep cs
    else
      match splitOnChar sep cs with
      | [] => [[c]]
      | g :: gs => (c :: g) :: gs

/-- Accumulator worker for `linesOf`. -/
def linesOfAux : List Char → List Char → List (List Char)
  | [], acc => match acc with
    | [] => []
    | _ => [acc.reverse]
  | c :: cs, acc =>
    if c = '\n' then (acc.reverse ++ [ '\n' ]) :: linesOfAux cs []
    else linesOfAux cs (c :: acc)

/-- Cut a text into lines after every newline, keeping the newline at the
end of each piece and not producing a final empty piece: the readlines
view of a file. -/
def linesOf (cs : List Char) : List (List Char) := linesOfAux cs []

/-- Decimal digit character. -/
def digitChar : Nat → Char
  | 0 => '0' | 1 => '1' | 2 => '2' | 3 => '3' | 4 => '4'
  | 5 => '5' | 6 => '6' | 7 => '7' | 8 => '8' | _ => '9'

/-- Fuelled worker for `natChars`; the fuel only has to exceed the
number, which the wrapper guarantees. -/
def natCharsAux : Nat → Nat → List Char
  | 0, _ => []
  | fuel + 1, n =>
    if n < 10 then [digitChar n]
    else natCharsAux fuel (n / 10) ++ [digitChar (n % 10)]

/-- Decimal digits of a natural number, most significant first. -/
def natChars (n : Nat) : List Char := natCharsAux (n + 1) n

/-- Decimal text of an integer: the str builtin on an int. -/
def intChars (i : Int) : List Char :=
  if i < 0 then '-' :: natChars i.natAbs else natChars i.natAbs

/-- Value of a list of decimal digits. -/
def digitsVal (cs : List Char) : Nat :=
  cs.foldl (fun a c => 10 * a + (c.toNat - 48)) 0

/-- Digits possibly grouped by single underscores, the shape accepted by
the int builtin after stripping whitespace and sign: every group between
underscores must be a nonempty run of digits. -/
def pyNatCore (cs : List Char) : Option Nat :=
  if (splitOnChar '_' cs).all (fun g => decide (g ≠ []) && g.all isDigitA) then
    some (digitsVal (cs.filter (fun c => !decide (c = '_'))))
  else none

/-- Sign-and-digits part of the int builtin, applied after stripping. -/
def pyIntCore : List Char → Option Int
  | [] => none
  | c :: r =>
    if c = '+' then (pyNatCore r).map Int.ofNat
    else if c = '-' then (pyNatCore r).map (fun n => -(n : Int))
    else (pyNatCore (c :: r)).map Int.ofNat

/-- The int builtin on text: strip whitespace, optional single sign, then
underscore-grouped decimal digits; anything else fails. -/
def pyInt (cs : List Char) : Option Int :=
  pyIntCore (stripA cs)

/-- Abstract model of the binary floating point type: how the float
builtin reads text, how formatting prints a value, equality and
truthiness, and the value recovered after one format-and-parse trip. -/
structure FloatModel (F : Type) where
  parse : List Char → Option F
  fmt : F → List Char
  beq : F → F → Bool
  eqInt : F → Int → Bool
  truthy : F → Bool
  rt : F → F

/-- Typed setting value: one constructor per schema tag, plus the raw
none value used by the patch interface to request a deletion. -/
inductive GValue (F : Type) where
  | vfloat : F → GValue F
  | vint : Int → GValue F
  | vbool : Bool → GValue F
  | vstring : List Char → GValue F
  | varray : List F → GValue F
  | vnone : GValue F
deriving DecidableEq, Repr

/-- Outcome of a codec operation: a value, or the message text of the
raised error. -/
inductive PyRes (α : Type) where
  | ok : α → PyRes α
  | err : List Char → PyRes α
deriving DecidableEq, Repr

/-- Keyword schema: association of keyword text to type tag text. -/
abbrev Schema := List (List Char × List Char)

/-- First binding of a key in an association list. -/
def lookupA {α : Type} : List (List Char × α) → List Char → Option α
  | [], _ => none
  | (k, v) :: r, q => if k = q then some v else lookupA r q

/-- Remove the binding of a key; on the unique-key lists produced by the
source dictionaries this is exactly deletion. -/
def removeA {α : Type} : List (List Char × α) → List Char → List (List Char × α)
  | [], _ => []
  | (k, v) :: r, q => if k = q then removeA r q else (k, v) :: removeA r q

/-- Insert or overwrite a binding, keeping the position of the first
insertion, as dictionary assignment does. -/
def upsertA {α : Type} : List (List Char × α) → List Char → α → List (List Char × α)
  | [], q, v => [(q, v)]
  | (k, w) :: r, q, v =>
    if k = q then (q, v) :: r else (k, w) :: upsertA r q v

def tFloat : List Char := ("float").data
def tInt : List Char := ("int").data
def tBool : List Char := ("bool").data
def tString : List Char := ("string").data
def tArray : List Char := ("array").data

/-- Join pieces with a comma and space, as the list repr does between
elements. -/
def joinComma : List (List Char) → List Char
  | [] => []
  | [x] => x
  | x :: y :: ys => x ++ (", ").data ++ joinComma (y :: ys)

variable {F : Type}

/-- Text of a value under the str builtin: integers in decimal, booleans
as True or False, strings verbatim, lists in brackets with comma-space
separators, and None as its name. -/
def pyStr (Fm : FloatModel F) : GValue F → List Char
  | .vfloat x => Fm.fmt x
  | .vint n => intChars n
  | .vbool b => if b then ("True").data else ("False").data
  | .vstring s => s
  | .varray xs => '[' :: (joinComma (xs.map Fm.fmt) ++ [ ']' ])
  | .vnone => ("None").data

/-- Truthiness of a value: zero numbers, empty strings and arrays, false
and None are falsy. -/
def pyTruthy (Fm : FloatModel F) : GValue F → Bool
  | .vfloat x => Fm.truthy x
  | .vint n => decide (n ≠ 0)
  | .vbool b => b
  | .vstring s => decide (s ≠ [])
  | .varray xs => !xs.isEmpty
  | .vnone => false

/-- Elementwise comparison of float lists. -/
def listBeq (f : F → F → Bool) : List F → List F → Bool
  | [], [] => true
  | x :: xs, y :: ys => f x y && listBeq f xs ys
  | _, _ => false

/-- Equality between setting values as the source comparison sees it,
including the numeric cross-type equalities between booleans, integers
and floats; values of unrelated types compare unequal, as does None
against everything else. -/
def pyEq (Fm : FloatModel F) : GValue F → GValue F → Bool
  | .vint a, .vint b => decide (a = b)
  | .vint a, .vbool b => decide (a = (if b then 1 else 0))
  | .vbool a, .vint b => decide ((if a then (1 : Int) else 0) = b)
  | .vbool a, .vbool b => a == b
  | .vfloat x, .vfloat y => Fm.beq x y
  | .vfloat x, .vint n => Fm.eqInt x n
  | .vint n, .vfloat x => Fm.eqInt x n
  | .vfloat x, .vbool b => Fm.eqInt x (if b then 1 else 0)
  | .vbool b, .vfloat x => Fm.eqInt x (if b then 1 else 0)
  | .vstring s, .vstring t => decide (s = t)
  | .varray xs, .varray ys => listBeq Fm.beq xs ys
  | .vnone, .vnone => true
  | _, _ => false

/-- The comment regex under match semantics: an optional whitespace run,
a bang and a dot-run up to a newline; or at least one whitespace
character at the start of the line. -/
def commentMatch (l : List Char) : Bool :=
  (match l.dropWhile isSpaceA with
    | [] => false
    | c :: rest => decide (c = '!') && decide ('\n' ∈ rest))
  || (match l with
    | [] => false
    | c :: _ => isSpaceA c)

/-- The setting regex under match semantics: optional whitespace, a
keyword made of an uppercase letter followed by word characters,
whitespace, an equals sign, whitespace, then the dot-run captured as the
value, ending at a newline or at the end of input. -/
def settingMatch (l : List Char) : Option (List Char × List Char) :=
  match l.dropWhile isSpaceA with
  | [] => none
  | c :: r1 =>
    if isUpperA c then
      match (r1.dropWhile isWordA).dropWhile isSpaceA with
      | [] => none
      | c2 :: r3 =>
        if c2 = '=' then
          some (c :: r1.takeWhile isWordA, (r3.dropWhile isSpaceA).takeWhile neNl)
        else none
    else none

def squote : Char := Char.ofNat 39

/-- Message of the error raised when a line does not match the setting
regex. -/
def msgNotSetting (l : List Char) : List Char :=
  l ++ (" is not a valid setting.").data

/-- Message of the error raised for a keyword absent from the schema. -/
def msgUnknownKw (k : List Char) : List Char :=
  ("Unknown keyword ").data ++ k ++ (".").data

/-- Message of the error the int builtin raises on malformed digits; the
offending text is quoted as its repr is in the source message. -/
def msgIntErr (v : List Char) : List Char :=
  ("invalid literal for int() with base 10: ").data ++ squote :: (v ++ [squote])

/-- Message of the error the float builtin raises on malformed numeric
text. -/
def msgFloatErr (v : List Char) : List Char :=
  ("could not convert string to float: ").data ++ squote :: (v ++ [squote])

/-- Parse every comma-separated token as a float, failing on the first
token the float builtin rejects, as the list comprehension does. -/
def parseFloats (Fm : FloatModel F) : List (List Char) → PyRes (List F)
  | [] => .ok []
  | t :: ts =>
    match Fm.parse t with
    | none => .err (msgFloatErr t)
    | some x =>
      match parseFloats Fm ts with
      | .ok xs => .ok (x :: xs)
      | .err e => .err e

/-- Read one settings line into a keyword and typed value: match the
setting regex, look the keyword up in the schema, then coerce the value
text by the type tag; a tag outside the five known ones keeps the raw
captured text, after a warning. -/
def read_setting (Fm : FloatModel F) (kw : Schema) (line : List Char) :
    PyRes (List Char × GValue F) :=
  match settingMatch line with
  | none => .err (msgNotSetting line)
  | some (k, v) =>
    match lookupA kw k with
    | none => .err (msgUnknownKw k)
    | some tag =>
      if tag = tFloat then
        match Fm.parse v with
        | some x => .ok (k, .vfloat x)
        | none => .err (msgFloatErr v)
      else if tag = tArray then
        match parseFloats Fm (splitOnChar ',' v) with
        | .ok xs => .ok (k, .varray xs)
        | .err e => .err e
      else if tag = tBool then
        match pyInt v with
        | some n => .ok (k, .vbool (decide (n = 1)))
        | none => .err (msgIntErr v)
      else if tag = tInt then
        match pyInt v with
        | some n => .ok (k, .vint n)
        | none => .err (msgIntErr v)
      else if tag = tString then .ok (k, .vstring v)
      else .ok (k, .vstring v)

/-- Characters stripped from both ends of the array text: the two
bracket characters. -/
def isBr (c : Char) : Bool := decide (c = '[') || decide (c = ']')

/-- Strip leading and trailing bracket characters, as the strip method
with a bracket set does. -/
def stripBr (cs : List Char) : List Char :=
  ((cs.dropWhile isBr).reverse.dropWhile isBr).reverse

/-- Print one settings line for a keyword and value: float, int, string
and unknown tags format the value with str, bool prints one or zero by
truthiness, array prints the str of the list with its bracket ends
stripped; an unknown keyword raises. -/
def print_setting (Fm : FloatModel F) (kw : Schema) (k : List Char)
    (v : GValue F) : PyRes (List Char) :=
  match lookupA kw k with
  | none => .err (msgUnknownKw k)
  | some tag =>
    if tag = tFloat ∨ tag = tInt ∨ tag = tString then
      .ok (k ++ (" = ").data ++ pyStr Fm v ++ [ '\n' ])
    else if tag = tBool then
      .ok (k ++ (" = ").data ++
        (if pyTruthy Fm v then ("1").data else ("0").data) ++ [ '\n' ])
    else if tag = tArray then
      .ok (k ++ (" = ").data ++ stripBr (pyStr Fm v) ++ [ '\n' ])
    else .ok (k ++ (" = ").data ++ pyStr Fm v ++ [ '\n' ])

/-- Accumulator worker for `read_settings`. -/
def read_settingsAux (Fm : FloatModel F) (kw : Schema) :
    List (List Char) → List (List Char × GValue F) → List (List Char × GValue F)
  | [], acc => acc
  | l :: ls, acc =>
    if commentMatch l then read_settingsAux Fm kw ls acc
    else
      match read_setting Fm kw l with
      | .ok (k, v) => read_settingsAux Fm kw ls (upsertA acc k v)
      | .err _ => read_settingsAux Fm kw ls acc

/-- Read a whole settings file: skip comment lines, read each remaining
line, keep successfully parsed pairs in a dictionary where a later
binding of the same key overwrites the earlier one, and skip lines whose
read raised, after a warning. -/
def read_settings (Fm : FloatModel F) (kw : Schema)
    (lines : List (List Char)) : List (List Char × GValue F) :=
  read_settingsAux Fm kw lines []

/-- Dump settings to a destination: write the printed line of every
truthy entry in order; the text written before a raise is kept and the
raise is reported alongside it. -/
def dump_to (Fm : FloatModel F) (kw : Schema) :
    List (List Char × GValue F) → List Char × Option (List Char)
  | [] => ([], none)
  | (k, v) :: rest =>
    if pyTruthy Fm v then
      match print_setting Fm kw k v with
      | .ok line =>
        let r := dump_to Fm kw rest
        (line ++ r.1, r.2)
      | .err e => ([], some e)
    else dump_to Fm kw rest

/-- Annotation comment written when reading a line raised. -/
def annotLine (e : List Char) : List Char :=
  ("! GEOtoPy: ").data ++ e ++ [ '\n' ]

/-- Annotation comment written before a key requested deleted. -/
def annotDel (Fm : FloatModel F) (k : List Char) (v : GValue F) : List Char :=
  ("! GEOtoPy: ").data ++ k ++ (" deleted, was ").data ++
    pyStr Fm v ++ (".").data ++ [ '\n' ]

/-- Annotation comment written before an overwritten setting. -/
def annotOw (Fm : FloatModel F) (k : List Char) (v : GValue F) : List Char :=
  ("! GEOtoPy: ").data ++ k ++ (" overwritten, was ").data ++
    pyStr Fm v ++ (".").data ++ [ '\n' ]

/-- Process one original line of the patch loop: comments are copied;
a line whose read raised is replaced by its annotation when annotations
are on, and dropped otherwise; a parsed line whose key is not in the
working overrides is copied; a key mapped to None gets a deletion
annotation before the original line and is consumed; a key mapped to an
unequal value gets an overwrite annotation and the printed new line and
is consumed; a key mapped to an equal value is copied and consumed.
Returns the text written and the overrides left. -/
def processLine (Fm : FloatModel F) (kw : Schema) (ann : Bool)
    (l : List Char) (diff : List (List Char × GValue F)) :
    List Char × List (List Char × GValue F) :=
  if commentMatch l then (l, diff)
  else
    match read_setting Fm kw l with
    | .err e => ((if ann then annotLine e else []), diff)
    | .ok (k, v) =>
      match lookupA diff k with
      | none => (l, diff)
      | some w =>
        match w with
        | .vnone =>
          ((if ann then annotDel Fm k v else []) ++ l, removeA diff k)
        | _ =>
          if pyEq Fm w v then (l, removeA diff k)
          else
            match print_setting Fm kw k w with
            | .ok pl =>
              ((if ann then annotOw Fm k v else []) ++ pl, removeA diff k)
            | .err e2 =>
              ((if ann then annotOw Fm k v else []) ++
                (if ann then annotLine e2 else []), diff)

/-- Fold `processLine` over the original lines, threading the working
overrides. -/
def patchLines (Fm : FloatModel F) (kw : Schema) (ann : Bool) :
    List (List Char) → List (List Char × GValue F) →
    List Char × List (List Char × GValue F)
  | [], diff => ([], diff)
  | l :: ls, diff =>
    let p := processLine Fm kw ann l diff
    let r := patchLines Fm kw ann ls p.2
    (p.1 ++ r.1, r.2)

/-- Header comment written at the top of every patched file; the
timestamp is the formatted current time of the run. -/
def headerText (ts : List Char) : List Char :=
  ("! GEOtop input file written by GEOtoPy ").data ++ ts ++ [ '\n' ]

/-- Marker comment opening the trailing section of appended settings. -/
def newSection : List Char := ("\n! Settings added by GEOtoPy\n").data

/-- Patch a settings file: write the header, process every original
line, then, when overrides remain, write the section marker if
annotations are on and dump the remaining overrides.  Returns the text
written to the file and the message of the error that escaped, if any:
text written before a raise inside the dump stays in the file. -/
def patch_inpts_file (Fm : FloatModel F) (kw : Schema)
    (diff : List (List Char × GValue F)) (ann : Bool) (ts : List Char)
    (lines : List (List Char)) : List Char × Option (List Char) :=
  let b := patchLines Fm kw ann lines diff
  if b.2.isEmpty then (headerText ts ++ b.1, none)
  else
    let d := dump_to Fm kw b.2
    (headerText ts ++ b.1 ++ (if ann then newSection else []) ++ d.1, d.2)

/-- Parse of the print of one setting, the composition the round-trip
property is about. -/
def roundTrip (Fm : FloatModel F) (kw : Schema) (k : List Char)
    (v : GValue F) : PyRes (List Char × GValue F) :=
  match print_setting Fm kw k v with
  | .ok line => read_setting Fm kw line
  | .err e => .err e

/-- Witness float model: decimal integers stand in for floats; parsing
is the int builtin, formatting is decimal text, and one trip recovers
the value exactly. -/
def intFloat : FloatModel Int where
  parse := pyInt
  fmt := intChars
  beq := fun a b => decide (a = b)
  eqInt := fun a b => decide (a = b)
  truthy := fun n => decide (n ≠ 0)
  rt := id

/-- Laws a float model satisfies when its text formatting is clean and
precise enough to re-parse: formatted text is nonempty, free of
whitespace, commas, newlines and brackets, and parses back, with or
without one leading space, to the round-trip value. -/
structure FloatLaws {F : Type} (Fm : FloatModel F) : Prop where
  fmt_ne : ∀ x, Fm.fmt x ≠ []
  fmt_clean : ∀ x c, c ∈ Fm.fmt x →
    isSpaceA c = false ∧ c ≠ ',' ∧ c ≠ '[' ∧ c ≠ ']' ∧ c ≠ '\n'
  parse_fmt : ∀ x, Fm.parse (Fm.fmt x) = some (Fm.rt x)
  parse_fmt_sp : ∀ x, Fm.parse (' ' :: Fm.fmt x) = some (Fm.rt x)

/-- Comment-or-blank classification in the words of the specification:
the line is whitespace-only, or its first character that is not
whitespace is a bang. -/
def specCommentLine (l : List Char) : Bool :=
  l.all isSpaceA ||
    (match l.dropWhile isSpaceA with
      | [] => false
      | c :: _ => decide (c = '!'))

/-- Line ending in its only newline: the shape of every line of a file
except possibly the last. -/
def termLine (l : List Char) : Prop :=
  ∃ b, '\n' ∉ b ∧ l = b ++ [ '\n' ]

/-- Well-formed line as produced by reading a file: nonempty, with a
newline at most at the end. -/
def wfLine (l : List Char) : Prop :=
  termLine l ∨ ('\n' ∉ l ∧ l ≠ [])

/-- Line list as produced by reading a file: every line before the last
ends in its only newline, and the last is a well-formed line. -/
def goodLines : List (List Char) → Prop
  | [] => True
  | l :: ls => (termLine l ∧ goodLines ls) ∨ (ls = [] ∧ wfLine l)

/-- Printed text of a setting, empty when printing raises; used to state
what the dump phase writes. -/
def printedOr (Fm : FloatModel F) (kw : Schema) (k : List Char)
    (v : GValue F) : List Char :=
  match print_setting Fm kw k v with
  | .ok l => l
  | .err _ => []

/-- Text the dump phase writes for a list of entries when none of them
raises: the printed lines of exactly the truthy entries, in order. -/
def dumpText (Fm : FloatModel F) (kw : Schema)
    (diff : List (List Char × GValue F)) : List Char :=
  ((diff.filter (fun e => pyTruthy Fm e.2)).map
    (fun e => printedOr Fm kw e.1 e.2)).flatten

end GTP

namespace GTP

/-- Equality of characters is equality of code points. -/
theorem char_eq_iff_toNat {c d : Char} : c = d ↔ c.toNat = d.toNat := by
  constructor
  · rintro rfl; rfl
  · intro h
    exact Char.eq_of_val_eq (UInt32.eq_of_toBitVec_eq (BitVec.eq_of_toNat_eq h))

theorem isSpaceA_iff {c : Char} : isSpaceA c = true ↔
    (c.toNat = 32 ∨ c.toNat = 9 ∨ c.toNat = 10 ∨ c.toNat = 13 ∨
      c.toNat = 11 ∨ c.toNat = 12) := by
  simp [isSpaceA, Bool.or_eq_true, decide_eq_true_eq, or_assoc]

theorem isUpperA_iff {c : Char} : isUpperA c = true ↔
    (65 ≤ c.toNat ∧ c.toNat ≤ 90) := by
  simp [isUpperA, Bool.and_eq_true, decide_eq_true_eq]

theorem isDigitA_iff {c : Char} : isDigitA c = true ↔
    (48 ≤ c.toNat ∧ c.toNat ≤ 57) := by
  simp [isDigitA, Bool.and_eq_true, decide_eq_true_eq]

theorem isWordA_iff {c : Char} : isWordA c = true ↔
    ((48 ≤ c.toNat ∧ c.toNat ≤ 57) ∨ (65 ≤ c.toNat ∧ c.toNat ≤ 90) ∨
      (97 ≤ c.toNat ∧ c.toNat ≤ 122) ∨ c.toNat = 95) := by
  simp [isWordA, isDigitA, Bool.or_eq_true, Bool.and_eq_true,
    decide_eq_true_eq, or_assoc]

theorem neNl_iff {c : Char} : neNl c = true ↔ c ≠ '\n' := by
  simp [neNl]

theorem upper_not_space {c : Char} (h : isUpperA c = true) :
    isSpaceA c = false := by
  rw [isUpperA_iff] at h
  rw [Bool.eq_false_iff]
  intro hs
  rw [isSpaceA_iff] at hs
  omega

theorem upper_ne_nl {c : Char} (h : isUpperA c = true) : c ≠ '\n' :=
  fun hc => absurd (hc ▸ h) (by decide)

theorem upper_ne_bang {c : Char} (h : isUpperA c = true) : c ≠ '!' :=
  fun hc => absurd (hc ▸ h) (by decide)

theorem word_not_space {c : Char} (h : isWordA c = true) :
    isSpaceA c = false := by
  rw [isWordA_iff] at h
  rw [Bool.eq_false_iff]
  intro hs
  rw [isSpaceA_iff] at hs
  omega

theorem word_ne_nl {c : Char} (h : isWordA c = true) : c ≠ '\n' :=
  fun hc => absurd (hc ▸ h) (by decide)

theorem digit_word {c : Char} (h : isDigitA c = true) : isWordA c = true := by
  rw [isDigitA_iff] at h
  rw [isWordA_iff]
  omega

theorem digit_not_space {c : Char} (h : isDigitA c = true) :
    isSpaceA c = false := by
  exact word_not_space (digit_word h)

theorem digit_ne_nl {c : Char} (h : isDigitA c = true) : c ≠ '\n' := by
  exact word_ne_nl (digit_word h)

theorem digit_ne_underscore {c : Char} (h : isDigitA c = true) :
    c ≠ '_' :=
  fun hc => absurd (hc ▸ h) (by decide)

end GTP

namespace GTP

theorem takeWhile_all_append {p : Char → Bool} {a : List Char} {b : Char}
    {t : List Char} (ha : ∀ x ∈ a, p x = true) (hb : p b = false) :
    (a ++ b :: t).takeWhile p = a := by
  induction a with
  | nil => simp [List.takeWhile_cons, hb]
  | cons x xs ih =>
    have hx : p x = true := ha x (by simp)
    rw [List.cons_append, List.takeWhile_cons_of_pos hx,
      ih (fun y hy => ha y (by simp [hy]))]

theorem dropWhile_all_append {p : Char → Bool} {a : List Char} {b : Char}
    {t : List Char} (ha : ∀ x ∈ a, p x = true) (hb : p b = false) :
    (a ++ b :: t).dropWhile p = b :: t := by
  induction a with
  | nil => simp [List.dropWhile_cons, hb]
  | cons x xs ih =>
    have hx : p x = true := ha x (by simp)
    simp only [List.cons_append, List.dropWhile_cons, hx, if_true]
    exact ih (fun y hy => ha y (by simp [hy]))

theorem takeWhile_append_fail {p : Char → Bool} {d : Char}
    (hd : p d = false) : ∀ v : List Char,
    (v ++ [d]).takeWhile p = v.takeWhile p := by
  intro v
  induction v with
  | nil => simp [List.takeWhile_cons, hd]
  | cons x xs ih =>
    cases hx : p x with
    | true => simp [List.takeWhile_cons, hx, ih]
    | false => simp [List.takeWhile_cons, hx]

/-- Dropping whitespace then taking up to a newline ignores a trailing
newline. -/
theorem dropTake_nl (v : List Char) :
    ((v ++ [ '\n' ]).dropWhile isSpaceA).takeWhile neNl =
      (v.dropWhile isSpaceA).takeWhile neNl := by
  induction v with
  | nil => simp [List.dropWhile_cons, List.takeWhile_cons, isSpaceA, neNl]
  | cons x xs ih =>
    cases hx : isSpaceA x with
    | true => simp [List.dropWhile_cons, hx, ih]
    | false =>
      simp only [List.cons_append, List.dropWhile_cons, hx, Bool.false_eq_true,
        if_false]
      exact takeWhile_append_fail (by simp [neNl]) (x :: xs)

theorem commentMatch_nil : commentMatch [] = false := rfl

/-- Closed form of the comment classification on a nonempty line: the
first character is whitespace, or it is a bang and a newline occurs
later in the line. -/
theorem commentMatch_cons {c : Char} {r : List Char} :
    commentMatch (c :: r) =
      (isSpaceA c || (decide (c = '!') && decide ('\n' ∈ r))) := by
  unfold commentMatch
  cases hs : isSpaceA c with
  | true => simp [List.dropWhile_cons, hs]
  | false => simp [List.dropWhile_cons, hs]

/-- A line made of a keyword, the equals separator, a value and a
newline matches the setting regex with exactly that keyword, and the
value capture drops leading whitespace and stops before a newline. -/
theorem settingMatch_mk {c : Char} {cs v : List Char}
    (hc : isUpperA c = true) (hcs : ∀ x ∈ cs, isWordA x = true) :
    settingMatch ((c :: cs) ++ (" = ").data ++ v ++ [ '\n' ]) =
      some (c :: cs, (v.dropWhile isSpaceA).takeWhile neNl) := by
  have hsep : ((" = ").data : List Char) = ' ' :: '=' :: [ ' ' ] := rfl
  have hline : (c :: cs) ++ (" = ").data ++ v ++ [ '\n' ] =
      c :: (cs ++ ' ' :: '=' :: ' ' :: (v ++ [ '\n' ])) := by
    rw [hsep]; simp
  rw [hline]
  have h2 : (cs ++ ' ' :: '=' :: ' ' :: (v ++ [ '\n' ])).takeWhile isWordA =
      cs := takeWhile_all_append hcs (by decide)
  have h3 : (cs ++ ' ' :: '=' :: ' ' :: (v ++ [ '\n' ])).dropWhile isWordA =
      ' ' :: '=' :: ' ' :: (v ++ [ '\n' ]) := dropWhile_all_append hcs (by decide)
  have h4 : (' ' :: '=' :: ' ' :: (v ++ [ '\n' ])).dropWhile isSpaceA =
      '=' :: (' ' :: (v ++ [ '\n' ])) := by
    rw [List.dropWhile_cons_of_pos (by decide),
      List.dropWhile_cons_of_neg (by decide)]
  have h5 : (' ' :: (v ++ [ '\n' ])).dropWhile isSpaceA =
      (v ++ [ '\n' ]).dropWhile isSpaceA := by
    rw [List.dropWhile_cons_of_pos (by decide)]
  unfold settingMatch
  rw [List.dropWhile_cons_of_neg (by simp [upper_not_space hc])]
  simp only [hc, if_true, h2, h3, h4, h5, dropTake_nl, if_pos rfl]

end GTP

namespace GTP

theorem digitChar_digit (m : Nat) : isDigitA (digitChar m) = true := by
  unfold digitChar; split <;> decide

theorem digitChar_val {m : Nat} (h : m < 10) : (digitChar m).toNat - 48 = m := by
  interval_cases m <;> decide

/-- Joint specification of the fuelled digit printer: for enough fuel the
output is a nonempty list of digits whose left fold recovers the
number. -/
theorem natCharsAux_spec : ∀ fuel n, n < fuel →
    natCharsAux fuel n ≠ [] ∧
      (∀ c ∈ natCharsAux fuel n, isDigitA c = true) ∧
      ∀ a : Nat,
        (natCharsAux fuel n).foldl (fun a c => 10 * a + (c.toNat - 48)) a =
          a * 10 ^ (natCharsAux fuel n).length + n := by
  intro fuel
  induction fuel with
  | zero => intro n h; omega
  | succ fuel ih =>
    intro n h
    by_cases h10 : n < 10
    · refine ⟨by simp [natCharsAux, h10], ?_, ?_⟩
      · intro c hc
        simp [natCharsAux, h10] at hc
        rw [hc]; exact digitChar_digit n
      · intro a
        simp [natCharsAux, h10, List.foldl, digitChar_val h10]
        ring
    · have hlt : n / 10 < n := Nat.div_lt_self (by omega) (by omega)
      obtain ⟨hne, hdig, hfold⟩ := ih (n / 10) (by omega)
      refine ⟨by simp [natCharsAux, h10], ?_, ?_⟩
      · intro c hc
        simp only [natCharsAux, h10, if_false, List.mem_append,
          List.mem_singleton, Bool.false_eq_true] at hc
        rcases hc with hc | hc
        · exact hdig c hc
        · rw [hc]; exact digitChar_digit (n % 10)
      · intro a
        simp only [natCharsAux, h10, if_false, Bool.false_eq_true]
        rw [List.foldl_append, hfold a, List.length_append]
        simp only [List.foldl, List.length_singleton]
        rw [digitChar_val (Nat.mod_lt _ (by omega))]
        have hdm := Nat.div_add_mod n 10
        calc 10 * (a * 10 ^ (natCharsAux fuel (n / 10)).length + n / 10) +
              n % 10
            = a * 10 ^ ((natCharsAux fuel (n / 10)).length + 1) +
              (10 * (n / 10) + n % 10) := by ring
          _ = a * 10 ^ ((natCharsAux fuel (n / 10)).length + 1) + n := by
              rw [hdm]

theorem natChars_ne (n : Nat) : natChars n ≠ [] :=
  (natCharsAux_spec (n + 1) n (by omega)).1

theorem natChars_digits {n : Nat} {c : Char} (hc : c ∈ natChars n) :
    isDigitA c = true :=
  (natCharsAux_spec (n + 1) n (by omega)).2.1 c hc

theorem digitsVal_natChars (n : Nat) : digitsVal (natChars n) = n := by
  unfold digitsVal natChars
  rw [(natCharsAux_spec (n + 1) n (by omega)).2.2 0]
  simp

/-- Splitting a list free of the separator gives the whole list back as
one piece. -/
theorem splitOnChar_no_sep {sep : Char} : ∀ {cs : List Char},
    (∀ c ∈ cs, c ≠ sep) → splitOnChar sep cs = [cs] := by
  intro cs
  induction cs with
  | nil => intro _; rfl
  | cons x xs ih =>
    intro h
    have hx : x ≠ sep := h x (by simp)
    unfold splitOnChar
    rw [if_neg hx, ih (fun c hc => h c (by simp [hc]))]

theorem pyNatCore_natChars (n : Nat) : pyNatCore (natChars n) = some n := by
  unfold pyNatCore
  have hsplit : splitOnChar '_' (natChars n) = [natChars n] :=
    splitOnChar_no_sep (fun c hc => digit_ne_underscore (natChars_digits hc))
  rw [hsplit]
  have hall : (natChars n).all isDigitA = true := by
    rw [List.all_eq_true]
    intro c hc
    exact natChars_digits hc
  have hfil : (natChars n).filter (fun c => !decide (c = '_')) = natChars n := by
    rw [List.filter_eq_self]
    intro c hc
    simp [digit_ne_underscore (natChars_digits hc)]
  simp [hall, natChars_ne n, hfil, digitsVal_natChars]

theorem dropWhile_eq_self_of {p : Char → Bool} {cs : List Char}
    (h : ∀ c ∈ cs, p c = false) : cs.dropWhile p = cs := by
  cases cs with
  | nil => rfl
  | cons x xs =>
    rw [List.dropWhile_cons_of_neg (by simp [h x (by simp)])]

theorem stripA_no_space {cs : List Char}
    (h : ∀ c ∈ cs, isSpaceA c = false) : stripA cs = cs := by
  unfold stripA
  rw [dropWhile_eq_self_of h,
    dropWhile_eq_self_of (fun c hc => h c (by simpa using hc)),
    List.reverse_reverse]

end GTP

namespace GTP

theorem digit_ne_plus {c : Char} (h : isDigitA c = true) : c ≠ '+' :=
  fun hc => absurd (hc ▸ h) (by decide)

theorem digit_ne_minus {c : Char} (h : isDigitA c = true) : c ≠ '-' :=
  fun hc => absurd (hc ▸ h) (by decide)

theorem intChars_mem {i : Int} {c : Char} (hc : c ∈ intChars i) :
    isDigitA c = true ∨ c = '-' := by
  unfold intChars at hc
  by_cases hi : i < 0
  · rw [if_pos hi] at hc
    rcases List.mem_cons.mp hc with rfl | hc
    · right; rfl
    · left; exact natChars_digits hc
  · rw [if_neg hi] at hc
    left; exact natChars_digits hc

theorem intChars_not_space {i : Int} {c : Char} (hc : c ∈ intChars i) :
    isSpaceA c = false := by
  rcases intChars_mem hc with h | rfl
  · exact digit_not_space h
  · decide

theorem intChars_ne_nl {i : Int} {c : Char} (hc : c ∈ intChars i) :
    c ≠ '\n' := by
  rcases intChars_mem hc with h | rfl
  · exact digit_ne_nl h
  · decide

theorem intChars_ne (i : Int) : intChars i ≠ [] := by
  unfold intChars
  by_cases hi : i < 0
  · rw [if_pos hi]; simp
  · rw [if_neg hi]; exact natChars_ne _

/-- The int builtin ignores one leading space. -/
theorem pyInt_cons_space (cs : List Char) : pyInt (' ' :: cs) = pyInt cs := by
  unfold pyInt stripA
  rw [List.dropWhile_cons_of_pos (by decide)]

/-- The decimal text of an integer parses back to it: the exact
round-trip for int-tagged values. -/
theorem pyInt_intChars (i : Int) : pyInt (intChars i) = some i := by
  have hstrip : stripA (intChars i) = intChars i :=
    stripA_no_space (fun c hc => intChars_not_space hc)
  by_cases hi : i < 0
  · have hform : intChars i = '-' :: natChars i.natAbs := by
      unfold intChars; rw [if_pos hi]
    unfold pyInt
    rw [hstrip, hform]
    have hcore : pyIntCore ('-' :: natChars i.natAbs) =
        (pyNatCore (natChars i.natAbs)).map (fun n => -(n : Int)) := by
      simp only [pyIntCore]
      simp
    rw [hcore, pyNatCore_natChars]
    exact congrArg some (by show -(i.natAbs : Int) = i; omega)
  · have hform : intChars i = natChars i.natAbs := by
      unfold intChars; rw [if_neg hi]
    obtain ⟨c, r, hcr⟩ := List.exists_cons_of_ne_nil (natChars_ne i.natAbs)
    have hcd : isDigitA c = true := natChars_digits (by rw [hcr]; simp)
    unfold pyInt
    rw [hstrip, hform, hcr]
    have hcore : pyIntCore (c :: r) = (pyNatCore (c :: r)).map Int.ofNat := by
      simp only [pyIntCore]
      rw [if_neg (digit_ne_plus hcd), if_neg (digit_ne_minus hcd)]
    rw [hcore, ← hcr, pyNatCore_natChars]
    exact congrArg some (by show (i.natAbs : Int) = i; omega)

/-- Laws of the witness float model. -/
theorem intFloat_laws : FloatLaws intFloat where
  fmt_ne := fun x => intChars_ne x
  fmt_clean := by
    intro x c hc
    refine ⟨intChars_not_space hc, ?_, ?_, ?_, intChars_ne_nl hc⟩ <;>
      (rcases intChars_mem hc with h | rfl
       · exact fun he => absurd (he ▸ h) (by decide)
       · decide)
  parse_fmt := fun x => pyInt_intChars x
  parse_fmt_sp := fun x => by
    show pyInt (' ' :: intChars x) = some x
    rw [pyInt_cons_space]
    exact pyInt_intChars x

end GTP

namespace GTP

theorem linesOfAux_no_nl : ∀ (A acc : List Char), '\n' ∉ A →
    linesOfAux A acc =
      if acc.reverse ++ A = [] then [] else [acc.reverse ++ A] := by
  intro A
  induction A with
  | nil =>
    intro acc _
    cases acc with
    | nil => rfl
    | cons x xs => simp [linesOfAux]
  | cons c A' ih =>
    intro acc h
    have hc : c ≠ '\n' := by simp at h; exact Ne.symm h.1
    have hA' : '\n' ∉ A' := by simp at h; exact h.2
    unfold linesOfAux
    rw [if_neg hc, ih (c :: acc) hA']
    simp

theorem linesOfAux_nl_split : ∀ (A B acc : List Char), '\n' ∉ A →
    linesOfAux (A ++ '\n' :: B) acc =
      ((acc.reverse ++ A) ++ [ '\n' ]) :: linesOf B := by
  intro A
  induction A with
  | nil =>
    intro B acc _
    show linesOfAux ('\n' :: B) acc = _
    unfold linesOfAux
    rw [if_pos rfl]
    simp [linesOf]
  | cons c A' ih =>
    intro B acc h
    have hc : c ≠ '\n' := by simp at h; exact Ne.symm h.1
    have hA' : '\n' ∉ A' := by simp at h; exact h.2
    rw [List.cons_append]
    unfold linesOfAux
    rw [if_neg hc, ih B (c :: acc) hA']
    simp

theorem linesOf_nil : linesOf [] = [] := rfl

theorem linesOf_no_nl {A : List Char} (h : '\n' ∉ A) (hne : A ≠ []) :
    linesOf A = [A] := by
  unfold linesOf
  rw [linesOfAux_no_nl A [] h]
  simp [hne]

theorem linesOf_nl_split {A B : List Char} (h : '\n' ∉ A) :
    linesOf (A ++ '\n' :: B) = (A ++ [ '\n' ]) :: linesOf B := by
  unfold linesOf
  rw [linesOfAux_nl_split A B [] h]
  simp [linesOf]

theorem exists_first_nl {T : List Char} (h : '\n' ∈ T) :
    ∃ A R, T = A ++ '\n' :: R ∧ '\n' ∉ A := by
  induction T with
  | nil => simp at h
  | cons c T' ih =>
    by_cases hc : c = '\n'
    · exact ⟨[], T', by rw [hc]; rfl, by simp⟩
    · have : '\n' ∈ T' := by
        rcases List.mem_cons.mp h with he | hm
        · exact absurd he.symm hc
        · exact hm
      obtain ⟨A, R, hT, hA⟩ := ih this
      refine ⟨c :: A, R, by rw [hT]; rfl, ?_⟩
      rw [List.mem_cons]
      push_neg
      exact ⟨fun he => hc he.symm, hA⟩

theorem linesOf_append_aux : ∀ n (T0 T2 : List Char), T0.length ≤ n →
    linesOf ((T0 ++ [ '\n' ]) ++ T2) =
      linesOf (T0 ++ [ '\n' ]) ++ linesOf T2 := by
  intro n
  induction n with
  | zero =>
    intro T0 T2 hlen
    have h0 : T0 = [] := List.eq_nil_of_length_eq_zero (by omega)
    subst h0
    rw [show (([] ++ [ '\n' ]) ++ T2 : List Char) = [] ++ '\n' :: T2 by simp]
    rw [linesOf_nl_split (by simp)]
    rw [show (([] ++ [ '\n' ]) : List Char) = [] ++ '\n' :: [] by simp]
    rw [linesOf_nl_split (by simp)]
    simp [linesOf_nil]
  | succ n ih =>
    intro T0 T2 hlen
    by_cases hmem : '\n' ∈ T0
    · obtain ⟨A, R, rfl, hA⟩ := exists_first_nl hmem
      rw [show ((A ++ '\n' :: R) ++ [ '\n' ]) ++ T2 =
        A ++ '\n' :: ((R ++ [ '\n' ]) ++ T2) by simp]
      rw [linesOf_nl_split hA]
      rw [show (A ++ '\n' :: R) ++ [ '\n' ] = A ++ '\n' :: (R ++ [ '\n' ])
        by simp]
      rw [linesOf_nl_split hA]
      rw [ih R T2 (by simp at hlen; omega)]
      simp
    · rw [show (T0 ++ [ '\n' ]) ++ T2 = T0 ++ '\n' :: T2 by simp]
      rw [linesOf_nl_split hmem]
      rw [show (T0 ++ [ '\n' ] : List Char) = T0 ++ '\n' :: [] by simp]
      rw [linesOf_nl_split hmem]
      simp [linesOf_nil]

/-- Splitting into lines distributes over appending after a text that is
empty or newline-terminated. -/
theorem linesOf_append {T1 T2 : List Char}
    (h : T1 = [] ∨ ∃ T0, T1 = T0 ++ [ '\n' ]) :
    linesOf (T1 ++ T2) = linesOf T1 ++ linesOf T2 := by
  rcases h with rfl | ⟨T0, rfl⟩
  · simp [linesOf_nil]
  · exact linesOf_append_aux T0.length T0 T2 (le_refl _)

theorem goodLines_linesOf_aux : ∀ n (T : List Char), T.length ≤ n →
    goodLines (linesOf T) := by
  intro n
  induction n with
  | zero =>
    intro T hlen
    have h0 : T = [] := List.eq_nil_of_length_eq_zero (by omega)
    subst h0
    simp [linesOf_nil, goodLines]
  | succ n ih =>
    intro T hlen
    by_cases hmem : '\n' ∈ T
    · obtain ⟨A, R, rfl, hA⟩ := exists_first_nl hmem
      rw [linesOf_nl_split hA]
      cases hR : linesOf R with
      | nil => exact Or.inl ⟨⟨A, hA, rfl⟩, by rw [← hR]; exact ih R (by simp at hlen; omega)⟩
      | cons x xs =>
        exact Or.inl ⟨⟨A, hA, rfl⟩, by rw [← hR]; exact ih R (by simp at hlen; omega)⟩
    · by_cases hne : T = []
      · subst hne; simp [linesOf_nil, goodLines]
      · rw [linesOf_no_nl hmem hne]
        exact Or.inr ⟨rfl, Or.inr ⟨hmem, hne⟩⟩

/-- Every split of a text into lines is a well-formed line list. -/
theorem goodLines_linesOf (T : List Char) : goodLines (linesOf T) :=
  goodLines_linesOf_aux T.length T (le_refl _)

end GTP

namespace GTP

variable {F : Type}

theorem read_setting_not (Fm : FloatModel F) (kw : Schema) {line : List Char}
    (hm : settingMatch line = none) :
    read_setting Fm kw line = .err (msgNotSetting line) := by
  unfold read_setting
  rw [hm]

theorem read_setting_unknown (Fm : FloatModel F) {kw : Schema}
    {line k t : List Char} (hm : settingMatch line = some (k, t))
    (hlk : lookupA kw k = none) :
    read_setting Fm kw line = .err (msgUnknownKw k) := by
  unfold read_setting
  rw [hm]
  simp only []
  rw [hlk]

theorem read_setting_int (Fm : FloatModel F) {kw : Schema}
    {line k t : List Char} {n : Int} (hm : settingMatch line = some (k, t))
    (hlk : lookupA kw k = some tInt) (hn : pyInt t = some n) :
    read_setting Fm kw line = .ok (k, .vint n) := by
  unfold read_setting
  rw [hm]
  simp only []
  rw [hlk]
  simp only []
  rw [if_neg (by decide), if_neg (by decide), if_neg (by decide),
    if_pos trivial, hn]

theorem read_setting_int_err (Fm : FloatModel F) {kw : Schema}
    {line k t : List Char} (hm : settingMatch line = some (k, t))
    (hlk : lookupA kw k = some tInt) (hn : pyInt t = none) :
    read_setting Fm kw line = .err (msgIntErr t) := by
  unfold read_setting
  rw [hm]
  simp only []
  rw [hlk]
  simp only []
  rw [if_neg (by decide), if_neg (by decide), if_neg (by decide),
    if_pos trivial, hn]

theorem read_setting_bool (Fm : FloatModel F) {kw : Schema}
    {line k t : List Char} {n : Int} (hm : settingMatch line = some (k, t))
    (hlk : lookupA kw k = some tBool) (hn : pyInt t = some n) :
    read_setting Fm kw line = .ok (k, .vbool (decide (n = 1))) := by
  unfold read_setting
  rw [hm]
  simp only []
  rw [hlk]
  simp only []
  rw [if_neg (by decide), if_neg (by decide), if_pos trivial, hn]

theorem read_setting_string (Fm : FloatModel F) {kw : Schema}
    {line k t : List Char} (hm : settingMatch line = some (k, t))
    (hlk : lookupA kw k = some tString) :
    read_setting Fm kw line = .ok (k, .vstring t) := by
  unfold read_setting
  rw [hm]
  simp only []
  rw [hlk]
  simp only []
  rw [if_neg (by decide), if_neg (by decide), if_neg (by decide),
    if_neg (by decide), if_pos trivial]

theorem read_setting_float (Fm : FloatModel F) {kw : Schema}
    {line k t : List Char} {x : F} (hm : settingMatch line = some (k, t))
    (hlk : lookupA kw k = some tFloat) (hx : Fm.parse t = some x) :
    read_setting Fm kw line = .ok (k, .vfloat x) := by
  unfold read_setting
  rw [hm]
  simp only []
  rw [hlk]
  simp only []
  rw [if_pos trivial, hx]

theorem read_setting_array (Fm : FloatModel F) {kw : Schema}
    {line k t : List Char} {xs : List F} (hm : settingMatch line = some (k, t))
    (hlk : lookupA kw k = some tArray)
    (hp : parseFloats Fm (splitOnChar ',' t) = .ok xs) :
    read_setting Fm kw line = .ok (k, .varray xs) := by
  unfold read_setting
  rw [hm]
  simp only []
  rw [hlk]
  simp only []
  rw [if_neg (by decide), if_pos trivial, hp]

theorem read_setting_array_err (Fm : FloatModel F) {kw : Schema}
    {line k t e : List Char} (hm : settingMatch line = some (k, t))
    (hlk : lookupA kw k = some tArray)
    (hp : parseFloats Fm (splitOnChar ',' t) = .err e) :
    read_setting Fm kw line = .err e := by
  unfold read_setting
  rw [hm]
  simp only []
  rw [hlk]
  simp only []
  rw [if_neg (by decide), if_pos trivial, hp]

theorem print_setting_unknown (Fm : FloatModel F) {kw : Schema}
    {k : List Char} (v : GValue F) (hlk : lookupA kw k = none) :
    print_setting Fm kw k v = .err (msgUnknownKw k) := by
  unfold print_setting
  rw [hlk]

theorem print_setting_fis (Fm : FloatModel F) {kw : Schema}
    {k tag : List Char} (v : GValue F) (hlk : lookupA kw k = some tag)
    (htag : tag = tFloat ∨ tag = tInt ∨ tag = tString) :
    print_setting Fm kw k v =
      .ok (k ++ (" = ").data ++ pyStr Fm v ++ [ '\n' ]) := by
  unfold print_setting
  rw [hlk]
  simp only []
  rw [if_pos htag]

theorem print_setting_bool (Fm : FloatModel F) {kw : Schema}
    {k : List Char} (v : GValue F) (hlk : lookupA kw k = some tBool) :
    print_setting Fm kw k v =
      .ok (k ++ (" = ").data ++
        (if pyTruthy Fm v then ("1").data else ("0").data) ++ [ '\n' ]) := by
  unfold print_setting
  rw [hlk]
  simp only []
  rw [if_neg (by decide), if_pos trivial]

theorem print_setting_array (Fm : FloatModel F) {kw : Schema}
    {k : List Char} (v : GValue F) (hlk : lookupA kw k = some tArray) :
    print_setting Fm kw k v =
      .ok (k ++ (" = ").data ++ stripBr (pyStr Fm v) ++ [ '\n' ]) := by
  unfold print_setting
  rw [hlk]
  simp only []
  rw [if_neg (by decide), if_neg (by decide), if_pos trivial]

/-- A keyword present in the schema always prints without raising. -/
theorem print_setting_isSome (Fm : FloatModel F) {kw : Schema}
    {k tag : List Char} (v : GValue F) (hlk : lookupA kw k = some tag) :
    print_setting Fm kw k v = .ok (printedOr Fm kw k v) := by
  have : ∃ out, print_setting Fm kw k v = .ok out := by
    unfold print_setting
    rw [hlk]
    simp only []
    split_ifs <;> exact ⟨_, rfl⟩
  obtain ⟨out, hout⟩ := this
  rw [hout]
  unfold printedOr
  rw [hout]

theorem processLine_comment (Fm : FloatModel F) (kw : Schema) (ann : Bool)
    {l : List Char} (diff : List (List Char × GValue F))
    (h : commentMatch l = true) :
    processLine Fm kw ann l diff = (l, diff) := by
  unfold processLine
  rw [if_pos h]

theorem processLine_err (Fm : FloatModel F) {kw : Schema} (ann : Bool)
    {l e : List Char} (diff : List (List Char × GValue F))
    (h1 : commentMatch l = false) (h2 : read_setting Fm kw l = .err e) :
    processLine Fm kw ann l diff =
      ((if ann then annotLine e else []), diff) := by
  unfold processLine
  rw [if_neg (by simp [h1]), h2]

theorem processLine_absent (Fm : FloatModel F) {kw : Schema} (ann : Bool)
    {l k : List Char} {v : GValue F} {diff : List (List Char × GValue F)}
    (h1 : commentMatch l = false) (h2 : read_setting Fm kw l = .ok (k, v))
    (h3 : lookupA diff k = none) :
    processLine Fm kw ann l diff = (l, diff) := by
  unfold processLine
  rw [if_neg (by simp [h1]), h2]
  simp only []
  rw [h3]

theorem processLine_del (Fm : FloatModel F) {kw : Schema} (ann : Bool)
    {l k : List Char} {v : GValue F} {diff : List (List Char × GValue F)}
    (h1 : commentMatch l = false) (h2 : read_setting Fm kw l = .ok (k, v))
    (h3 : lookupA diff k = some .vnone) :
    processLine Fm kw ann l diff =
      ((if ann then annotDel Fm k v else []) ++ l, removeA diff k) := by
  unfold processLine
  rw [if_neg (by simp [h1]), h2]
  simp only []
  rw [h3]

theorem processLine_eq (Fm : FloatModel F) {kw : Schema} (ann : Bool)
    {l k : List Char} {v w : GValue F} {diff : List (List Char × GValue F)}
    (h1 : commentMatch l = false) (h2 : read_setting Fm kw l = .ok (k, v))
    (h3 : lookupA diff k = some w) (h4 : w ≠ .vnone)
    (h5 : pyEq Fm w v = true) :
    processLine Fm kw ann l diff = (l, removeA diff k) := by
  unfold processLine
  rw [if_neg (by simp [h1]), h2]
  simp only []
  rw [h3]
  cases w <;> first
    | exact absurd rfl h4
    | (simp only []; rw [if_pos h5])

theorem processLine_ow (Fm : FloatModel F) {kw : Schema} (ann : Bool)
    {l k pl : List Char} {v w : GValue F} {diff : List (List Char × GValue F)}
    (h1 : commentMatch l = false) (h2 : read_setting Fm kw l = .ok (k, v))
    (h3 : lookupA diff k = some w) (h4 : w ≠ .vnone)
    (h5 : pyEq Fm w v = false) (h6 : print_setting Fm kw k w = .ok pl) :
    processLine Fm kw ann l diff =
      ((if ann then annotOw Fm k v else []) ++ pl, removeA diff k) := by
  unfold processLine
  rw [if_neg (by simp [h1]), h2]
  simp only []
  rw [h3]
  cases w <;> first
    | exact absurd rfl h4
    | (simp only []; rw [if_neg (by simp [h5]), h6])

theorem patchLines_nil (Fm : FloatModel F) (kw : Schema) (ann : Bool)
    (diff : List (List Char × GValue F)) :
    patchLines Fm kw ann [] diff = ([], diff) := rfl

theorem patchLines_cons (Fm : FloatModel F) (kw : Schema) (ann : Bool)
    (l : List Char) (ls : List (List Char))
    (diff : List (List Char × GValue F)) :
    patchLines Fm kw ann (l :: ls) diff =
      ((processLine Fm kw ann l diff).1 ++
        (patchLines Fm kw ann ls (processLine Fm kw ann l diff).2).1,
       (patchLines Fm kw ann ls (processLine Fm kw ann l diff).2).2) := rfl

theorem patchLines_append (Fm : FloatModel F) (kw : Schema) (ann : Bool)
    (L1 L2 : List (List Char)) (diff : List (List Char × GValue F)) :
    patchLines Fm kw ann (L1 ++ L2) diff =
      ((patchLines Fm kw ann L1 diff).1 ++
        (patchLines Fm kw ann L2 (patchLines Fm kw ann L1 diff).2).1,
       (patchLines Fm kw ann L2 (patchLines Fm kw ann L1 diff).2).2) := by
  induction L1 generalizing diff with
  | nil => simp [patchLines_nil]
  | cons l ls ih =>
    rw [List.cons_append, patchLines_cons, ih, patchLines_cons]
    simp [List.append_assoc]

theorem patch_rem_nil (Fm : FloatModel F) (kw : Schema)
    (diff : List (List Char × GValue F)) (ann : Bool) (ts : List Char)
    (lines : List (List Char))
    (h : (patchLines Fm kw ann lines diff).2 = []) :
    patch_inpts_file Fm kw diff ann ts lines =
      (headerText ts ++ (patchLines Fm kw ann lines diff).1, none) := by
  unfold patch_inpts_file
  simp [h]

theorem patch_rem_cons (Fm : FloatModel F) (kw : Schema)
    (diff : List (List Char × GValue F)) (ann : Bool) (ts : List Char)
    (lines : List (List Char))
    (h : (patchLines Fm kw ann lines diff).2 ≠ []) :
    patch_inpts_file Fm kw diff ann ts lines =
      (headerText ts ++ (patchLines Fm kw ann lines diff).1 ++
        (if ann then newSection else []) ++
        (dump_to Fm kw (patchLines Fm kw ann lines diff).2).1,
       (dump_to Fm kw (patchLines Fm kw ann lines diff).2).2) := by
  unfold patch_inpts_file
  simp [List.isEmpty_iff, h]

theorem dump_to_ok (Fm : FloatModel F) (kw : Schema)
    {d : List (List Char × GValue F)}
    (h : ∀ e ∈ d, pyTruthy Fm e.2 = true → (lookupA kw e.1).isSome) :
    dump_to Fm kw d = (dumpText Fm kw d, none) := by
  induction d with
  | nil => rfl
  | cons e d' ih =>
    obtain ⟨k, v⟩ := e
    by_cases hv : pyTruthy Fm v = true
    · have hk := h (k, v) (by simp) hv
      obtain ⟨tag, htag⟩ := Option.isSome_iff_exists.mp hk
      unfold dump_to
      rw [if_pos hv, print_setting_isSome Fm v htag,
        ih (fun e he ht => h e (by simp [he]) ht)]
      unfold dumpText
      simp [List.filter_cons, hv]
    · unfold dump_to
      rw [if_neg hv, ih (fun e he ht => h e (by simp [he]) ht)]
      unfold dumpText
      simp [List.filter_cons, hv]

theorem dump_to_err (Fm : FloatModel F) (kw : Schema)
    {d1 d2 : List (List Char × GValue F)} {k : List Char} {v : GValue F}
    (h1 : ∀ e ∈ d1, pyTruthy Fm e.2 = true → (lookupA kw e.1).isSome)
    (hk : lookupA kw k = none) (hv : pyTruthy Fm v = true) :
    dump_to Fm kw (d1 ++ (k, v) :: d2) =
      (dumpText Fm kw d1, some (msgUnknownKw k)) := by
  induction d1 with
  | nil =>
    rw [List.nil_append]
    unfold dump_to
    rw [if_pos hv, print_setting_unknown Fm v hk]
    rfl
  | cons e d' ih =>
    obtain ⟨k0, v0⟩ := e
    by_cases hv0 : pyTruthy Fm v0 = true
    · have hk0 := h1 (k0, v0) (by simp) hv0
      obtain ⟨tag, htag⟩ := Option.isSome_iff_exists.mp hk0
      rw [List.cons_append]
      unfold dump_to
      rw [if_pos hv0, print_setting_isSome Fm v0 htag,
        ih (fun e he ht => h1 e (by simp [he]) ht)]
      unfold dumpText
      simp [List.filter_cons, hv0]
    · rw [List.cons_append]
      unfold dump_to
      rw [if_neg hv0, ih (fun e he ht => h1 e (by simp [he]) ht)]
      unfold dumpText
      simp [List.filter_cons, hv0]

end GTP

namespace GTP

/-- C3, counterexample: the code classifies the indented setting line as
a comment/blank line, while the specified classification does not; and a
final bang line without a newline is specified as a comment but the code
does not classify it as one. -/
theorem C3_cex :
    commentMatch (("  A = 1\n").data) = true ∧
    specCommentLine (("  A = 1\n").data) = false ∧
    commentMatch (("!x").data) = false ∧
    specCommentLine (("!x").data) = true := by decide

/-- C3, amended: a line is treated as a comment/blank line exactly when
its first character is whitespace, or its first character is a bang and
a newline occurs later in the line; in particular a setting line with
leading whitespace is treated as a comment/blank line, copied verbatim
by the patch loop and skipped by parsing. -/
theorem C3_amended : ∀ l : List Char,
    (commentMatch l =
      match l with
      | [] => false
      | c :: r => isSpaceA c || (decide (c = '!') && decide ('\n' ∈ r))) ∧
    (∀ (F : Type) (Fm : FloatModel F) (kw : Schema) (ann : Bool)
      (diff : List (List Char × GValue F)), commentMatch l = true →
        processLine Fm kw ann l diff = (l, diff)) ∧
    (∀ (F : Type) (Fm : FloatModel F) (kw : Schema) (ls : List (List Char))
      (acc : List (List Char × GValue F)), commentMatch l = true →
        read_settingsAux Fm kw (l :: ls) acc = read_settingsAux Fm kw ls acc) := by
  intro l
  refine ⟨?_, ?_, ?_⟩
  · cases l with
    | nil => rfl
    | cons c r => exact commentMatch_cons
  · intro F Fm kw ann diff h
    exact processLine_comment Fm kw ann diff h
  · intro F Fm kw ls acc h
    simp only [read_settingsAux]
    rw [if_pos h]

/-- C3, witness: the indented setting line is copied verbatim by the
patch loop and skipped by parsing, through the amended classification. -/
theorem C3_witness :
    processLine intFloat [(("A").data, tInt)] true (("  A = 1\n").data) [] =
      ((("  A = 1\n").data), []) ∧
    read_settingsAux intFloat [(("A").data, tInt)]
      [("  A = 1\n").data] [] = [] :=
  ⟨(C3_amended (("  A = 1\n").data)).2.1 Int intFloat
      [(("A").data, tInt)] true [] (by decide),
   (C3_amended (("  A = 1\n").data)).2.2 Int intFloat
      [(("A").data, tInt)] [] [] (by decide)⟩

/-- C7: for a key with the bool schema tag, a setting line whose value
text parses as the integer n reads as the boolean that is true exactly
when n is one. -/
theorem C7_thm : ∀ (F : Type) (Fm : FloatModel F) (kw : Schema)
    (line k t : List Char) (n : Int), settingMatch line = some (k, t) →
    lookupA kw k = some tBool → pyInt t = some n →
    read_setting Fm kw line = .ok (k, .vbool (decide (n = 1))) := by
  intro F Fm kw line k t n hm hlk hn
  exact read_setting_bool Fm hm hlk hn

/-- C7, witness: value two reads as false, value one as true. -/
theorem C7_witness :
    read_setting intFloat [(("W").data, tBool)] (("W = 2\n").data) =
      .ok (("W").data, .vbool false) ∧
    read_setting intFloat [(("W").data, tBool)] (("W = 1\n").data) =
      .ok (("W").data, .vbool true) :=
  ⟨C7_thm Int intFloat [(("W").data, tBool)] (("W = 2\n").data)
      (("W").data) (("2").data) 2 (by decide) (by decide) (by decide),
   C7_thm Int intFloat [(("W").data, tBool)] (("W = 1\n").data)
      (("W").data) (("1").data) 1 (by decide) (by decide) (by decide)⟩

/-- C9, counterexample: two patch runs on identical input text,
overrides and annotation flag, but at different clock readings, write
different file contents: the header embeds the formatted current time. -/
theorem C9_cex :
    patch_inpts_file intFloat [(("A").data, tInt)] [] true
      (("01/02/20 03:04:05").data) [("A = 1\n").data] ≠
    patch_inpts_file intFloat [(("A").data, tInt)] [] true
      (("06/07/21 08:09:10").data) [("A = 1\n").data] := by decide

/-- C9, amended: parsing is a pure function of its inputs, and patching
depends on the clock only through the header line: two runs with the
same input text, overrides and annotation flag agree on everything after
their header lines, and raise identically. -/
theorem C9_amended : ∀ (F : Type) (Fm : FloatModel F) (kw : Schema)
    (diff : List (List Char × GValue F)) (ann : Bool)
    (ts1 ts2 : List Char) (lines : List (List Char)),
    ((patch_inpts_file Fm kw diff ann ts1 lines).1).drop
        (headerText ts1).length =
      ((patch_inpts_file Fm kw diff ann ts2 lines).1).drop
        (headerText ts2).length ∧
    (patch_inpts_file Fm kw diff ann ts1 lines).2 =
      (patch_inpts_file Fm kw diff ann ts2 lines).2 := by
  intro F Fm kw diff ann ts1 ts2 lines
  by_cases hrem : (patchLines Fm kw ann lines diff).2 = []
  · rw [patch_rem_nil Fm kw diff ann ts1 lines hrem,
      patch_rem_nil Fm kw diff ann ts2 lines hrem]
    exact ⟨by rw [List.drop_left, List.drop_left], rfl⟩
  · rw [patch_rem_cons Fm kw diff ann ts1 lines hrem,
      patch_rem_cons Fm kw diff ann ts2 lines hrem]
    refine ⟨?_, rfl⟩
    simp only [List.append_assoc]
    rw [List.drop_left, List.drop_left]

end GTP

namespace GTP

/-- C4, counterexample: patching a file whose only line sets A, with an
override mapping that does not mention A, writes the line through
unchanged and active, with no deletion annotation; the key is not
treated as deleted. -/
theorem C4_cex :
    patch_inpts_file intFloat [(("A").data, tInt)] [] true (("TS").data)
        [("A = 1\n").data] =
      (headerText (("TS").data) ++ ("A = 1\n").data, none) ∧
    ("A = 1\n").data ∈ linesOf
      (patch_inpts_file intFloat [(("A").data, tInt)] [] true (("TS").data)
        [("A = 1\n").data]).1 := by decide

/-- C4, amended: a successfully parsed setting line whose key is absent
from the overrides mapping is written through unchanged, with no
annotation; deletion is instead requested by mapping the key to None, in
which case a deletion annotation is emitted when annotations are on, but
the original line is still written as an active, uncommented setting
line after it. -/
theorem C4_amended : ∀ (F : Type) (Fm : FloatModel F) (kw : Schema)
    (ann : Bool) (l k : List Char) (v : GValue F)
    (diff : List (List Char × GValue F)),
    commentMatch l = false → read_setting Fm kw l = .ok (k, v) →
    (lookupA diff k = none →
      processLine Fm kw ann l diff = (l, diff)) ∧
    (lookupA diff k = some .vnone →
      processLine Fm kw ann l diff =
        ((if ann then annotDel Fm k v else []) ++ l, removeA diff k)) := by
  intro F Fm kw ann l k v diff h1 h2
  exact ⟨fun h3 => processLine_absent Fm ann h1 h2 h3,
    fun h3 => processLine_del Fm ann h1 h2 h3⟩

/-- C4, witness: both branches of the amended claim at a concrete line,
key and override mapping. -/
theorem C4_witness :
    processLine intFloat [(("A").data, tInt)] true (("A = 1\n").data)
      [(("B").data, GValue.vint 2)] =
      ((("A = 1\n").data), [(("B").data, GValue.vint 2)]) ∧
    processLine intFloat [(("A").data, tInt)] true (("A = 1\n").data)
      [(("A").data, GValue.vnone)] =
      (annotDel intFloat (("A").data) (.vint 1) ++ ("A = 1\n").data, []) :=
  ⟨(C4_amended Int intFloat [(("A").data, tInt)] true (("A = 1\n").data)
      (("A").data) (.vint 1) [(("B").data, GValue.vint 2)]
      (by decide) (by decide)).1 (by decide),
   (C4_amended Int intFloat [(("A").data, tInt)] true (("A = 1\n").data)
      (("A").data) (.vint 1) [(("A").data, GValue.vnone)]
      (by decide) (by decide)).2 (by decide)⟩

/-- C1, counterexample: patching a file whose only line is malformed
never raises, but the line is dropped: it does not appear among the
lines of the output, which consists of the header and the annotation
comment only. -/
theorem C1_cex :
    (patch_inpts_file intFloat [(("A").data, tInt)] [] true (("TS").data)
        [("not a setting\n").data]).2 = none ∧
    ("not a setting\n").data ∉ linesOf
      (patch_inpts_file intFloat [(("A").data, tInt)] [] true (("TS").data)
        [("not a setting\n").data]).1 := by decide

/-- C1, amended: on a line that fails to parse, the error message is
emitted as a comment line when annotations are on, and the original line
is dropped, not copied; the patch never raises on such a line. -/
theorem C1_amended : ∀ (F : Type) (Fm : FloatModel F) (kw : Schema)
    (ann : Bool) (ts l e : List Char),
    commentMatch l = false → read_setting Fm kw l = .err e →
    patch_inpts_file Fm kw [] ann ts [l] =
      (headerText ts ++ (if ann then annotLine e else []), none) := by
  intro F Fm kw ann ts l e h1 h2
  have hpl : processLine Fm kw ann l ([] : List (List Char × GValue F)) =
      ((if ann then annotLine e else []), []) :=
    processLine_err Fm ann [] h1 h2
  have hbody : patchLines Fm kw ann [l] [] =
      ((if ann then annotLine e else []), []) := by
    rw [patchLines_cons, hpl]
    simp [patchLines_nil]
  rw [patch_rem_nil Fm kw [] ann ts [l] (by rw [hbody]), hbody]

/-- C1, witness: the amended claim at a concrete malformed line. -/
theorem C1_witness :
    patch_inpts_file intFloat [(("A").data, tInt)] [] true (("TS").data)
        [("not a setting\n").data] =
      (headerText (("TS").data) ++
        annotLine (msgNotSetting (("not a setting\n").data)), none) :=
  C1_amended Int intFloat [(("A").data, tInt)] true (("TS").data)
    (("not a setting\n").data)
    (msgNotSetting (("not a setting\n").data)) (by decide) (by decide)

end GTP

namespace GTP

/-- C2, counterexample: an override entry with value zero is never
appended: the patched output has a trailing-section marker but no line
for the entry, and no error is raised. -/
theorem C2_cex :
    ("B = 0\n").data ∉ linesOf
      (patch_inpts_file intFloat [(("A").data, tInt), (("B").data, tInt)]
        [(("B").data, GValue.vint 0)] true (("TS").data)
        [("A = 1\n").data]).1 ∧
    (patch_inpts_file intFloat [(("A").data, tInt), (("B").data, tInt)]
        [(("B").data, GValue.vint 0)] true (("TS").data)
        [("A = 1\n").data]).2 = none := by decide

/-- C2, amended: after the pass over the original lines, the remaining
override entries are appended as a trailing section, but only the truthy
ones: an entry whose value is falsy, such as 0, 0.0, False, an empty
string or an empty array, is silently skipped by the dump. -/
theorem C2_amended : ∀ (F : Type) (Fm : FloatModel F) (kw : Schema)
    (diff : List (List Char × GValue F)) (ann : Bool) (ts : List Char),
    (∀ e ∈ diff, pyTruthy Fm e.2 = true → (lookupA kw e.1).isSome) →
    patch_inpts_file Fm kw diff ann ts [] =
      (headerText ts ++
        (if diff.isEmpty then []
          else (if ann then newSection else []) ++ dumpText Fm kw diff),
       none) := by
  intro F Fm kw diff ann ts h
  have hbody : patchLines Fm kw ann [] diff = ([], diff) :=
    patchLines_nil Fm kw ann diff
  by_cases hd : diff = []
  · subst hd
    rw [patch_rem_nil Fm kw [] ann ts [] (by rw [hbody]), hbody]
    simp
  · rw [patch_rem_cons Fm kw diff ann ts [] (by rw [hbody]; exact hd), hbody]
    simp only []
    rw [dump_to_ok Fm kw h]
    simp [List.isEmpty_iff, hd]

/-- C2, witness: a falsy entry is skipped and a truthy entry is
appended, through the amended claim at a concrete override mapping. -/
theorem C2_witness :
    patch_inpts_file intFloat [(("B").data, tInt), (("C").data, tInt)]
      [(("B").data, GValue.vint 0), (("C").data, GValue.vint 3)] true
      (("TS").data) [] =
      (headerText (("TS").data) ++ newSection ++ ("C = 3\n").data, none) :=
  (C2_amended Int intFloat [(("B").data, tInt), (("C").data, tInt)]
    [(("B").data, GValue.vint 0), (("C").data, GValue.vint 3)] true
    (("TS").data) (by decide)).trans (by decide)

/-- C6, counterexample: an override key absent from the schema makes the
whole patch raise: the unknown-keyword error escapes, the entry is not
written as a literal line and no comment noting the failure is emitted;
the file is left with only the header, the original line and the
trailing-section marker. -/
theorem C6_cex :
    (patch_inpts_file intFloat [(("A").data, tInt)]
        [(("B").data, GValue.vint 2)] true (("TS").data)
        [("A = 1\n").data]).2 =
      some (("Unknown keyword B.").data) ∧
    (patch_inpts_file intFloat [(("A").data, tInt)]
        [(("B").data, GValue.vint 2)] true (("TS").data)
        [("A = 1\n").data]).1 =
      headerText (("TS").data) ++ ("A = 1\n").data ++ newSection := by decide

/-- C6, amended: during the append phase, a truthy override entry whose
key is not in the schema makes print raise inside the dump; the error
escapes and aborts the whole patch.  Entries before it are appended
(the truthy ones), no fallback literal line and no failure comment are
written for the offending entry, and entries after it are not processed;
the text written so far stays in the file alongside the escaped error. -/
theorem C6_amended : ∀ (F : Type) (Fm : FloatModel F) (kw : Schema)
    (ts : List Char) (ann : Bool) (d1 : List (List Char × GValue F))
    (k : List Char) (v : GValue F) (d2 : List (List Char × GValue F)),
    (∀ e ∈ d1, pyTruthy Fm e.2 = true → (lookupA kw e.1).isSome) →
    lookupA kw k = none → pyTruthy Fm v = true →
    patch_inpts_file Fm kw (d1 ++ (k, v) :: d2) ann ts [] =
      (headerText ts ++ (if ann then newSection else []) ++
        dumpText Fm kw d1,
       some (msgUnknownKw k)) := by
  intro F Fm kw ts ann d1 k v d2 h1 hk hv
  have hbody : patchLines Fm kw ann [] (d1 ++ (k, v) :: d2) =
      ([], d1 ++ (k, v) :: d2) :=
    patchLines_nil Fm kw ann (d1 ++ (k, v) :: d2)
  rw [patch_rem_cons Fm kw (d1 ++ (k, v) :: d2) ann ts []
    (by rw [hbody]; simp), hbody]
  simp only []
  rw [dump_to_err Fm kw h1 hk hv]
  simp

/-- C6, witness: the amended claim at a concrete override mapping with a
truthy known entry before the unknown key and another entry after it. -/
theorem C6_witness :
    patch_inpts_file intFloat [(("C").data, tInt), (("D").data, tInt)]
      [(("C").data, GValue.vint 3), (("B").data, GValue.vint 2),
        (("D").data, GValue.vint 4)] true (("TS").data) [] =
      (headerText (("TS").data) ++ newSection ++ ("C = 3\n").data,
       some (("Unknown keyword B.").data)) :=
  (C6_amended Int intFloat [(("C").data, tInt), (("D").data, tInt)]
    (("TS").data) true [(("C").data, GValue.vint 3)] (("B").data)
    (GValue.vint 2) [(("D").data, GValue.vint 4)]
    (by decide) (by decide) (by decide)).trans (by decide)

end GTP

namespace GTP

variable {F : Type}

theorem head?_mem {α : Type} {l : List α} {c : α} (h : l.head? = some c) :
    c ∈ l := by
  cases l with
  | nil => simp at h
  | cons x xs =>
    simp at h
    rw [h]
    simp

theorem takeWhile_eq_self_of {p : Char → Bool} {t : List Char}
    (h : ∀ c ∈ t, p c = true) : t.takeWhile p = t := by
  induction t with
  | nil => rfl
  | cons x xs ih =>
    rw [List.takeWhile_cons_of_pos (h x (by simp)),
      ih (fun c hc => h c (by simp [hc]))]

theorem dropWhile_eq_self_head {p : Char → Bool} {t : List Char}
    (h : ∀ c, t.head? = some c → p c = false) : t.dropWhile p = t := by
  cases t with
  | nil => rfl
  | cons x xs => rw [List.dropWhile_cons_of_neg (by simp [h x rfl])]

/-- The value capture is the identity on text that does not start with
whitespace and contains no newline. -/
theorem value_clean {t : List Char}
    (hh : ∀ c, t.head? = some c → isSpaceA c = false) (hn : '\n' ∉ t) :
    (t.dropWhile isSpaceA).takeWhile neNl = t := by
  rw [dropWhile_eq_self_head hh]
  exact takeWhile_eq_self_of (fun c hc => by
    simp only [neNl, Bool.not_eq_true', decide_eq_false_iff_not]
    exact fun he => hn (he ▸ hc))

theorem stripBr_wrap {mid : List Char} (hne : mid ≠ [])
    (hmid : ∀ c ∈ mid, isBr c = false) :
    stripBr ('[' :: (mid ++ [ ']' ])) = mid := by
  obtain ⟨m0, mr, rfl⟩ := List.exists_cons_of_ne_nil hne
  unfold stripBr
  rw [List.dropWhile_cons_of_pos (by decide)]
  rw [show ((m0 :: mr) ++ [ ']' ]) = m0 :: (mr ++ [ ']' ]) by rfl]
  rw [List.dropWhile_cons_of_neg (by simp [hmid m0 (by simp)])]
  rw [show (m0 :: (mr ++ [ ']' ])).reverse = ']' :: (mr.reverse ++ [m0]) by
    simp]
  rw [List.dropWhile_cons_of_pos (by decide)]
  rw [dropWhile_eq_self_of (fun c hc => by
    rcases List.mem_append.mp hc with hc | hc
    · exact hmid c (by simp [List.mem_reverse.mp hc])
    · simp at hc
      exact hmid c (by simp [hc]))]
  simp

theorem splitOnChar_ne {sep : Char} : ∀ T : List Char,
    splitOnChar sep T ≠ [] := by
  intro T
  cases T with
  | nil => simp [splitOnChar]
  | cons c cs =>
    unfold splitOnChar
    by_cases hc : c = sep
    · rw [if_pos hc]; simp
    · rw [if_neg hc]
      cases h : splitOnChar sep cs <;> simp

theorem splitOnChar_cons_ne {sep c : Char} {T : List Char} (hc : c ≠ sep) :
    ∀ {g : List Char} {gs : List (List Char)},
      splitOnChar sep T = g :: gs →
      splitOnChar sep (c :: T) = (c :: g) :: gs := by
  intro g gs h
  unfold splitOnChar
  rw [if_neg hc, h]

theorem splitOnChar_append_sep {sep : Char} : ∀ {A B : List Char},
    (∀ c ∈ A, c ≠ sep) →
    splitOnChar sep (A ++ sep :: B) = A :: splitOnChar sep B := by
  intro A
  induction A with
  | nil =>
    intro B _
    show splitOnChar sep (sep :: B) = [] :: splitOnChar sep B
    conv_lhs => rw [splitOnChar]
    rw [if_pos rfl]
  | cons a A' ih =>
    intro B h
    rw [List.cons_append]
    have hrec := ih (B := B) (fun c hc => h c (by simp [hc]))
    exact splitOnChar_cons_ne (h a (by simp)) hrec

end GTP

namespace GTP

variable {F : Type}

theorem joinComma_decomp (x : List Char) (ys : List (List Char)) :
    ∃ r, joinComma (x :: ys) = x ++ r := by
  cases ys with
  | nil => exact ⟨[], by simp [joinComma]⟩
  | cons y ys' =>
    exact ⟨(", ").data ++ joinComma (y :: ys'), by
      simp [joinComma, List.append_assoc]⟩

theorem joinComma_mem : ∀ {L : List (List Char)} {c : Char},
    c ∈ joinComma L → (∃ z ∈ L, c ∈ z) ∨ c = ',' ∨ c = ' ' := by
  intro L
  induction L with
  | nil => intro c hc; simp [joinComma] at hc
  | cons x ys ih =>
    intro c hc
    cases ys with
    | nil =>
      simp only [joinComma] at hc
      exact Or.inl ⟨x, by simp, hc⟩
    | cons y ys' =>
      simp only [joinComma, List.mem_append] at hc
      rcases hc with (hc | hc) | hc
      · exact Or.inl ⟨x, by simp, hc⟩
      · right
        rcases List.mem_pair.mp hc with rfl | rfl
        · exact Or.inl rfl
        · exact Or.inr rfl
      · rcases ih hc with ⟨z, hz, hcz⟩ | h
        · exact Or.inl ⟨z, by simp at hz ⊢; tauto, hcz⟩
        · exact Or.inr h

theorem parseFloats_sp (Fm : FloatModel F) (hL : FloatLaws Fm) :
    ∀ ys : List F,
      parseFloats Fm (ys.map (fun y => ' ' :: Fm.fmt y)) =
        .ok (ys.map Fm.rt) := by
  intro ys
  induction ys with
  | nil => rfl
  | cons y ys' ih =>
    rw [List.map_cons]
    conv_lhs => rw [parseFloats]
    rw [hL.parse_fmt_sp y, ih]
    rfl

theorem parseFloats_join (Fm : FloatModel F) (hL : FloatLaws Fm)
    (x : F) (ys : List F) :
    parseFloats Fm (Fm.fmt x :: ys.map (fun y => ' ' :: Fm.fmt y)) =
      .ok (Fm.rt x :: ys.map Fm.rt) := by
  conv_lhs => rw [parseFloats]
  rw [hL.parse_fmt x, parseFloats_sp Fm hL ys]

theorem split_joinComma (Fm : FloatModel F) (hL : FloatLaws Fm) :
    ∀ (ys : List F) (x : F),
      splitOnChar ',' (joinComma ((x :: ys).map Fm.fmt)) =
        Fm.fmt x :: ys.map (fun y => ' ' :: Fm.fmt y) := by
  intro ys
  induction ys with
  | nil =>
    intro x
    simp only [List.map_cons, List.map_nil]
    rw [show joinComma [Fm.fmt x] = Fm.fmt x from by simp [joinComma]]
    exact splitOnChar_no_sep (fun c hc => (hL.fmt_clean x c hc).2.1)
  | cons y ys' ih =>
    intro x
    simp only [List.map_cons]
    have hjc : joinComma (Fm.fmt x :: Fm.fmt y :: ys'.map Fm.fmt) =
        Fm.fmt x ++ ',' :: ' ' :: joinComma (Fm.fmt y :: ys'.map Fm.fmt) := by
      simp [joinComma, List.append_assoc]
    rw [hjc, splitOnChar_append_sep (fun c hc => (hL.fmt_clean x c hc).2.1)]
    congr 1
    have hrec := ih y
    rw [List.map_cons] at hrec
    exact splitOnChar_cons_ne (by decide) hrec

end GTP

namespace GTP

/-- C5, counterexample: the round-trip is not exact for every string
value: a leading space is swallowed by the value capture; and an empty
array prints as an empty value text, which fails to re-parse at all. -/
theorem C5_cex :
    roundTrip intFloat [(("A").data, tString)] (("A").data)
        (.vstring (' ' :: ("x").data)) ≠
      .ok (("A").data, .vstring (' ' :: ("x").data)) ∧
    roundTrip intFloat [(("R").data, tArray)] (("R").data)
        (.varray ([] : List Int)) =
      .err (msgFloatErr []) := by decide

/-- C5, amended: parsing the line printed for a schema-valid pair gives
the pair back exactly for int and bool tags; exactly for string tags
when the string does not start with whitespace and contains no newline;
and up to one format-and-parse trip of the numeric text formatting for
float tags and for array tags at nonempty arrays, empty arrays failing
to re-parse. -/
theorem C5_amended : ∀ (F : Type) (Fm : FloatModel F), FloatLaws Fm →
    ∀ (kw : Schema) (c : Char) (cs : List Char),
    isUpperA c = true → (∀ x ∈ cs, isWordA x = true) →
    (lookupA kw (c :: cs) = some tInt → ∀ n : Int,
      roundTrip Fm kw (c :: cs) (.vint n) = .ok (c :: cs, .vint n)) ∧
    (lookupA kw (c :: cs) = some tBool → ∀ b : Bool,
      roundTrip Fm kw (c :: cs) (.vbool b) = .ok (c :: cs, .vbool b)) ∧
    (lookupA kw (c :: cs) = some tString → ∀ s : List Char,
      (∀ c0, s.head? = some c0 → isSpaceA c0 = false) → '\n' ∉ s →
      roundTrip Fm kw (c :: cs) (.vstring s) = .ok (c :: cs, .vstring s)) ∧
    (lookupA kw (c :: cs) = some tFloat → ∀ x : F,
      roundTrip Fm kw (c :: cs) (.vfloat x) =
        .ok (c :: cs, .vfloat (Fm.rt x))) ∧
    (lookupA kw (c :: cs) = some tArray → ∀ xs : List F, xs ≠ [] →
      roundTrip Fm kw (c :: cs) (.varray xs) =
        .ok (c :: cs, .varray (xs.map Fm.rt))) := by
  intro F Fm hL kw c cs hc hcs
  refine ⟨?_, ?_, ?_, ?_, ?_⟩
  · intro hlk n
    unfold roundTrip
    rw [print_setting_fis Fm (.vint n) hlk (Or.inr (Or.inl rfl))]
    have hval : ((intChars n).dropWhile isSpaceA).takeWhile neNl =
        intChars n :=
      value_clean (fun c0 h0 => intChars_not_space (head?_mem h0))
        (fun hmem => (intChars_ne_nl hmem) rfl)
    have hm : settingMatch
        ((c :: cs) ++ (" = ").data ++ intChars n ++ [ '\n' ]) =
        some (c :: cs, intChars n) := by
      rw [settingMatch_mk hc hcs, hval]
    exact read_setting_int Fm hm hlk (pyInt_intChars n)
  · intro hlk b
    unfold roundTrip
    rw [print_setting_bool Fm (.vbool b) hlk]
    cases b
    · have hm : settingMatch
          ((c :: cs) ++ (" = ").data ++ ("0").data ++ [ '\n' ]) =
          some (c :: cs, ("0").data) := by
        rw [settingMatch_mk hc hcs]
        rw [show ((("0").data.dropWhile isSpaceA).takeWhile neNl) =
          ("0").data from by decide]
      exact read_setting_bool Fm hm hlk
        (show pyInt (("0").data) = some 0 from by decide)
    · have hm : settingMatch
          ((c :: cs) ++ (" = ").data ++ ("1").data ++ [ '\n' ]) =
          some (c :: cs, ("1").data) := by
        rw [settingMatch_mk hc hcs]
        rw [show ((("1").data.dropWhile isSpaceA).takeWhile neNl) =
          ("1").data from by decide]
      exact read_setting_bool Fm hm hlk
        (show pyInt (("1").data) = some 1 from by decide)
  · intro hlk s hh hn
    unfold roundTrip
    rw [print_setting_fis Fm (.vstring s) hlk (Or.inr (Or.inr rfl))]
    have hm : settingMatch ((c :: cs) ++ (" = ").data ++ s ++ [ '\n' ]) =
        some (c :: cs, s) := by
      rw [settingMatch_mk hc hcs, value_clean hh hn]
    exact read_setting_string Fm hm hlk
  · intro hlk x
    unfold roundTrip
    rw [print_setting_fis Fm (.vfloat x) hlk (Or.inl rfl)]
    have hm : settingMatch
        ((c :: cs) ++ (" = ").data ++ Fm.fmt x ++ [ '\n' ]) =
        some (c :: cs, Fm.fmt x) := by
      rw [settingMatch_mk hc hcs,
        value_clean (fun c0 h0 => (hL.fmt_clean x c0 (head?_mem h0)).1)
          (fun hmem => ((hL.fmt_clean x '\n' hmem).2.2.2.2) rfl)]
    exact read_setting_float Fm hm hlk (hL.parse_fmt x)
  · intro hlk xs hxs
    obtain ⟨x, ys, rfl⟩ := List.exists_cons_of_ne_nil hxs
    unfold roundTrip
    rw [print_setting_array Fm (.varray (x :: ys)) hlk]
    have hmemfacts : ∀ c0 ∈ joinComma ((x :: ys).map Fm.fmt),
        isBr c0 = false ∧ c0 ≠ '\n' := by
      intro c0 hc0
      rcases joinComma_mem hc0 with ⟨z, hz, hcz⟩ | h | h
      · obtain ⟨w, hw, rfl⟩ := List.mem_map.mp hz
        obtain ⟨_, hcom, hbl, hbr, hnl⟩ := hL.fmt_clean w c0 hcz
        refine ⟨?_, hnl⟩
        simp [isBr, hbl, hbr]
      · subst h; exact ⟨by decide, by decide⟩
      · subst h; exact ⟨by decide, by decide⟩
    have hjoin_ne : joinComma ((x :: ys).map Fm.fmt) ≠ [] := by
      rw [List.map_cons]
      obtain ⟨r, hr⟩ := joinComma_decomp (Fm.fmt x) (ys.map Fm.fmt)
      rw [hr]
      intro hemp
      exact hL.fmt_ne x (List.append_eq_nil.mp hemp).1
    have hstrip : stripBr (pyStr Fm (.varray (x :: ys))) =
        joinComma ((x :: ys).map Fm.fmt) := by
      show stripBr ('[' :: (joinComma ((x :: ys).map Fm.fmt) ++ [ ']' ])) = _
      exact stripBr_wrap hjoin_ne (fun c0 hc0 => (hmemfacts c0 hc0).1)
    rw [hstrip]
    have hhead : ∀ c0, (joinComma ((x :: ys).map Fm.fmt)).head? = some c0 →
        isSpaceA c0 = false := by
      intro c0 h0
      rw [List.map_cons] at h0
      obtain ⟨r, hr⟩ := joinComma_decomp (Fm.fmt x) (ys.map Fm.fmt)
      rw [hr] at h0
      obtain ⟨f0, fr, hf⟩ := List.exists_cons_of_ne_nil (hL.fmt_ne x)
      rw [hf] at h0
      simp only [List.cons_append, List.head?_cons, Option.some_inj] at h0
      rw [← h0]
      exact (hL.fmt_clean x f0 (by rw [hf]; simp)).1
    have hm : settingMatch ((c :: cs) ++ (" = ").data ++
        joinComma ((x :: ys).map Fm.fmt) ++ [ '\n' ]) =
        some (c :: cs, joinComma ((x :: ys).map Fm.fmt)) := by
      rw [settingMatch_mk hc hcs,
        value_clean hhead (fun hmem => ((hmemfacts '\n' hmem).2) rfl)]
    have hpf : parseFloats Fm
        (splitOnChar ',' (joinComma ((x :: ys).map Fm.fmt))) =
        .ok ((x :: ys).map Fm.rt) := by
      rw [split_joinComma Fm hL ys x, parseFloats_join Fm hL x ys]
      rfl
    exact read_setting_array Fm hm hlk hpf

/-- C5, witness: the amended claim at the witness float model, a
concrete schema with all five tags, and concrete values. -/
theorem C5_witness :
    roundTrip intFloat [(("A").data, tInt)] (("A").data) (.vint (-7)) =
      .ok (("A").data, .vint (-7)) ∧
    roundTrip intFloat [(("B").data, tBool)] (("B").data) (.vbool true) =
      .ok (("B").data, .vbool true) ∧
    roundTrip intFloat [(("S").data, tString)] (("S").data)
        (.vstring (("hi there").data)) =
      .ok (("S").data, .vstring (("hi there").data)) ∧
    roundTrip intFloat [(("X").data, tFloat)] (("X").data) (.vfloat 6) =
      .ok (("X").data, .vfloat 6) ∧
    roundTrip intFloat [(("R").data, tArray)] (("R").data)
        (.varray [10, 20, 30]) =
      .ok (("R").data, .varray [10, 20, 30]) :=
  ⟨(C5_amended Int intFloat intFloat_laws [(("A").data, tInt)] 'A' []
      (by decide) (by decide)).1 (by decide) (-7),
   (C5_amended Int intFloat intFloat_laws [(("B").data, tBool)] 'B' []
      (by decide) (by decide)).2.1 (by decide) true,
   (C5_amended Int intFloat intFloat_laws [(("S").data, tString)] 'S' []
      (by decide) (by decide)).2.2.1 (by decide) (("hi there").data)
      (by decide) (by decide),
   (C5_amended Int intFloat intFloat_laws [(("X").data, tFloat)] 'X' []
      (by decide) (by decide)).2.2.2.1 (by decide) 6,
   (C5_amended Int intFloat intFloat_laws [(("R").data, tArray)] 'R' []
      (by decide) (by decide)).2.2.2.2 (by decide) [10, 20, 30]
      (by decide)⟩

end GTP

namespace GTP

variable {F : Type}

theorem commentMatch_setting {c : Char} {r : List Char}
    (hc : isUpperA c = true) : commentMatch (c :: r) = false := by
  rw [commentMatch_cons]
  simp [upper_not_space hc, upper_ne_bang hc]

theorem commentMatch_bang {r : List Char} (h : '\n' ∈ r) :
    commentMatch ('!' :: r) = true := by
  rw [commentMatch_cons]
  simp [h]

theorem no_nl_of_clean {t : List Char}
    (h : (t.dropWhile isSpaceA).takeWhile neNl = t) : '\n' ∉ t := by
  intro hm
  rw [← h] at hm
  have := List.mem_takeWhile_imp hm
  simp [neNl] at this

theorem linesOf_term {b : List Char} (h : '\n' ∉ b) :
    linesOf (b ++ [ '\n' ]) = [b ++ [ '\n' ]] := by
  rw [show b ++ [ '\n' ] = b ++ '\n' :: [] from rfl, linesOf_nl_split h,
    linesOf_nil]

theorem rsAux_comment (Fm : FloatModel F) (kw : Schema) {l : List Char}
    (ls : List (List Char)) (acc : List (List Char × GValue F))
    (h : commentMatch l = true) :
    read_settingsAux Fm kw (l :: ls) acc = read_settingsAux Fm kw ls acc := by
  simp only [read_settingsAux]
  rw [if_pos h]

theorem rsAux_ok (Fm : FloatModel F) {kw : Schema} {l k : List Char}
    {v : GValue F} (ls : List (List Char))
    (acc : List (List Char × GValue F)) (h1 : commentMatch l = false)
    (h2 : read_setting Fm kw l = .ok (k, v)) :
    read_settingsAux Fm kw (l :: ls) acc =
      read_settingsAux Fm kw ls (upsertA acc k v) := by
  simp only [read_settingsAux]
  rw [if_neg (by simp [h1]), h2]

theorem no_nl_body {k t : List Char} (hk : '\n' ∉ k) (ht : '\n' ∉ t) :
    '\n' ∉ (k ++ (" = ").data ++ t) := by
  intro hm
  rcases List.mem_append.mp hm with hm | hm
  · rcases List.mem_append.mp hm with hm | hm
    · exact hk hm
    · simp at hm
  · exact ht hm

theorem key_no_nl {c : Char} {cs : List Char} (hc : isUpperA c = true)
    (hcs : ∀ x ∈ cs, isWordA x = true) : '\n' ∉ (c :: cs) := by
  intro hm
  rcases List.mem_cons.mp hm with he | hm2
  · exact upper_ne_nl hc he.symm
  · exact word_ne_nl (hcs _ hm2) rfl

end GTP

namespace GTP

/-- C10: when the same key occurs on two setting lines and an override
for it is given, the patch consumes the override at the first
occurrence, annotating it and printing the new value there, writes the
second occurrence through unchanged, and appends nothing; parsing the
patched file afterwards yields the value of the last occurrence, which
still carries the old value. -/
theorem C10_thm : ∀ (F : Type) (Fm : FloatModel F) (kw : Schema)
    (ts : List Char) (c : Char) (cs t1 t2 : List Char) (n1 n2 m : Int),
    isUpperA c = true → (∀ x ∈ cs, isWordA x = true) →
    lookupA kw (c :: cs) = some tInt → '\n' ∉ ts →
    (t1.dropWhile isSpaceA).takeWhile neNl = t1 → pyInt t1 = some n1 →
    (t2.dropWhile isSpaceA).takeWhile neNl = t2 → pyInt t2 = some n2 →
    m ≠ n1 →
    patch_inpts_file Fm kw [(c :: cs, GValue.vint m)] true ts
        [(c :: cs) ++ (" = ").data ++ t1 ++ [ '\n' ],
         (c :: cs) ++ (" = ").data ++ t2 ++ [ '\n' ]] =
      (headerText ts ++ annotOw Fm (c :: cs) (.vint n1) ++
        ((c :: cs) ++ (" = ").data ++ intChars m ++ [ '\n' ]) ++
        ((c :: cs) ++ (" = ").data ++ t2 ++ [ '\n' ]), none) ∧
    lookupA (read_settings Fm kw (linesOf
        (patch_inpts_file Fm kw [(c :: cs, GValue.vint m)] true ts
          [(c :: cs) ++ (" = ").data ++ t1 ++ [ '\n' ],
           (c :: cs) ++ (" = ").data ++ t2 ++ [ '\n' ]]).1)) (c :: cs) =
      some (GValue.vint n2) := by
  intro F Fm kw ts c cs t1 t2 n1 n2 m hc hcs hlk hts hcl1 hn1 hcl2 hn2 hmn
  have hm1 : settingMatch ((c :: cs) ++ (" = ").data ++ t1 ++ [ '\n' ]) =
      some (c :: cs, t1) := by rw [settingMatch_mk hc hcs, hcl1]
  have hm2 : settingMatch ((c :: cs) ++ (" = ").data ++ t2 ++ [ '\n' ]) =
      some (c :: cs, t2) := by rw [settingMatch_mk hc hcs, hcl2]
  have hr1 : read_setting Fm kw ((c :: cs) ++ (" = ").data ++ t1 ++ [ '\n' ])
      = .ok (c :: cs, .vint n1) := read_setting_int Fm hm1 hlk hn1
  have hr2 : read_setting Fm kw ((c :: cs) ++ (" = ").data ++ t2 ++ [ '\n' ])
      = .ok (c :: cs, .vint n2) := read_setting_int Fm hm2 hlk hn2
  have hcm1 : commentMatch ((c :: cs) ++ (" = ").data ++ t1 ++ [ '\n' ]) =
      false := by
    rw [show (c :: cs) ++ (" = ").data ++ t1 ++ [ '\n' ] =
      c :: (cs ++ (" = ").data ++ t1 ++ [ '\n' ]) from by simp]
    exact commentMatch_setting hc
  have hcm2 : commentMatch ((c :: cs) ++ (" = ").data ++ t2 ++ [ '\n' ]) =
      false := by
    rw [show (c :: cs) ++ (" = ").data ++ t2 ++ [ '\n' ] =
      c :: (cs ++ (" = ").data ++ t2 ++ [ '\n' ]) from by simp]
    exact commentMatch_setting hc
  have hlkd : lookupA [((c : Char) :: cs, (GValue.vint m : GValue F))]
      (c :: cs) = some (GValue.vint m : GValue F) := by simp [lookupA]
  have hpe : pyEq Fm (GValue.vint m) (GValue.vint n1) = false := by
    simp [pyEq, hmn]
  have hprint : print_setting Fm kw (c :: cs) (GValue.vint m) =
      .ok ((c :: cs) ++ (" = ").data ++ intChars m ++ [ '\n' ]) :=
    print_setting_fis Fm (GValue.vint m) hlk (Or.inr (Or.inl rfl))
  have hrm : removeA [((c : Char) :: cs, (GValue.vint m : GValue F))]
      (c :: cs) = ([] : List (List Char × GValue F)) := by simp [removeA]
  have hp1 : processLine Fm kw true
      ((c :: cs) ++ (" = ").data ++ t1 ++ [ '\n' ])
      [(c :: cs, GValue.vint m)] =
      (annotOw Fm (c :: cs) (.vint n1) ++
        ((c :: cs) ++ (" = ").data ++ intChars m ++ [ '\n' ]), []) := by
    have h := processLine_ow Fm true hcm1 hr1 hlkd (by simp) hpe hprint
    rw [hrm] at h
    simpa using h
  have hp2 : processLine Fm kw true
      ((c :: cs) ++ (" = ").data ++ t2 ++ [ '\n' ])
      ([] : List (List Char × GValue F)) =
      ((c :: cs) ++ (" = ").data ++ t2 ++ [ '\n' ], []) :=
    processLine_absent Fm true hcm2 hr2 (by simp [lookupA])
  have hbody : patchLines Fm kw true
      [(c :: cs) ++ (" = ").data ++ t1 ++ [ '\n' ],
       (c :: cs) ++ (" = ").data ++ t2 ++ [ '\n' ]]
      [(c :: cs, GValue.vint m)] =
      ((annotOw Fm (c :: cs) (.vint n1) ++
        ((c :: cs) ++ (" = ").data ++ intChars m ++ [ '\n' ])) ++
        (((c :: cs) ++ (" = ").data ++ t2 ++ [ '\n' ]) ++ []), []) := by
    rw [patchLines_cons, hp1]
    rw [patchLines_cons, hp2]
    rfl
  have hout : patch_inpts_file Fm kw [(c :: cs, GValue.vint m)] true ts
      [(c :: cs) ++ (" = ").data ++ t1 ++ [ '\n' ],
       (c :: cs) ++ (" = ").data ++ t2 ++ [ '\n' ]] =
      (headerText ts ++ annotOw Fm (c :: cs) (.vint n1) ++
        ((c :: cs) ++ (" = ").data ++ intChars m ++ [ '\n' ]) ++
        ((c :: cs) ++ (" = ").data ++ t2 ++ [ '\n' ]), none) := by
    rw [patch_rem_nil Fm kw _ true ts _ (by rw [hbody]), hbody]
    simp [List.append_assoc]
  refine ⟨hout, ?_⟩
  have hfst : (patch_inpts_file Fm kw [(c :: cs, GValue.vint m)] true ts
      [(c :: cs) ++ (" = ").data ++ t1 ++ [ '\n' ],
       (c :: cs) ++ (" = ").data ++ t2 ++ [ '\n' ]]).1 =
      headerText ts ++ annotOw Fm (c :: cs) (.vint n1) ++
        ((c :: cs) ++ (" = ").data ++ intChars m ++ [ '\n' ]) ++
        ((c :: cs) ++ (" = ").data ++ t2 ++ [ '\n' ]) := by rw [hout]
  rw [hfst]
  have hknl : '\n' ∉ (c :: cs) := key_no_nl hc hcs
  have hpre : '\n' ∉ ("! GEOtop input file written by GEOtoPy ").data := by
    decide
  have hhdr_nl : '\n' ∉ (("! GEOtop input file written by GEOtoPy ").data
      ++ ts) := by
    intro hm
    rcases List.mem_append.mp hm with hm | hm
    · exact hpre hm
    · exact hts hm
  have hannot_nl : '\n' ∉ (("! GEOtoPy: ").data ++ (c :: cs) ++
      (" overwritten, was ").data ++ intChars n1 ++ (".").data) := by
    intro hm
    rcases List.mem_append.mp hm with hm | hm
    · rcases List.mem_append.mp hm with hm | hm
      · rcases List.mem_append.mp hm with hm | hm
        · rcases List.mem_append.mp hm with hm | hm
          · simp at hm
          · exact hknl hm
        · simp at hm
      · exact (intChars_ne_nl hm) rfl
    · simp at hm
  have hnl2 : '\n' ∉ t2 := no_nl_of_clean hcl2
  have hb3 : '\n' ∉ ((c :: cs) ++ (" = ").data ++ intChars m) :=
    no_nl_body hknl (fun hm => (intChars_ne_nl hm) rfl)
  have hb4 : '\n' ∉ ((c :: cs) ++ (" = ").data ++ t2) :=
    no_nl_body hknl hnl2
  have hlines : linesOf (headerText ts ++ annotOw Fm (c :: cs) (.vint n1) ++
      ((c :: cs) ++ (" = ").data ++ intChars m ++ [ '\n' ]) ++
      ((c :: cs) ++ (" = ").data ++ t2 ++ [ '\n' ])) =
      [headerText ts, annotOw Fm (c :: cs) (.vint n1),
       (c :: cs) ++ (" = ").data ++ intChars m ++ [ '\n' ],
       (c :: cs) ++ (" = ").data ++ t2 ++ [ '\n' ]] := by
    rw [show headerText ts ++ annotOw Fm (c :: cs) (.vint n1) ++
        ((c :: cs) ++ (" = ").data ++ intChars m ++ [ '\n' ]) ++
        ((c :: cs) ++ (" = ").data ++ t2 ++ [ '\n' ]) =
      headerText ts ++ (annotOw Fm (c :: cs) (.vint n1) ++
        (((c :: cs) ++ (" = ").data ++ intChars m ++ [ '\n' ]) ++
          ((c :: cs) ++ (" = ").data ++ t2 ++ [ '\n' ]))) from by
      simp [List.append_assoc]]
    rw [linesOf_append (Or.inr
      ⟨("! GEOtop input file written by GEOtoPy ").data ++ ts,
        show headerText ts =
          (("! GEOtop input file written by GEOtoPy ").data ++ ts) ++
            [ '\n' ] from rfl⟩)]
    rw [linesOf_append (Or.inr
      ⟨("! GEOtoPy: ").data ++ (c :: cs) ++ (" overwritten, was ").data ++
        intChars n1 ++ (".").data,
        show annotOw Fm (c :: cs) (.vint n1) =
          (("! GEOtoPy: ").data ++ (c :: cs) ++
            (" overwritten, was ").data ++ intChars n1 ++ (".").data) ++
            [ '\n' ] from rfl⟩)]
    rw [linesOf_append (Or.inr
      ⟨(c :: cs) ++ (" = ").data ++ intChars m,
        show (c :: cs) ++ (" = ").data ++ intChars m ++ [ '\n' ] =
          ((c :: cs) ++ (" = ").data ++ intChars m) ++ [ '\n' ]
          from rfl⟩)]
    rw [show headerText ts =
      (("! GEOtop input file written by GEOtoPy ").data ++ ts) ++ [ '\n' ]
      from rfl]
    rw [linesOf_term hhdr_nl]
    rw [show annotOw Fm (c :: cs) (.vint n1) =
      (("! GEOtoPy: ").data ++ (c :: cs) ++ (" overwritten, was ").data ++
        intChars n1 ++ (".").data) ++ [ '\n' ] from rfl]
    rw [linesOf_term hannot_nl]
    rw [show (c :: cs) ++ (" = ").data ++ intChars m ++ [ '\n' ] =
      ((c :: cs) ++ (" = ").data ++ intChars m) ++ [ '\n' ] from rfl]
    rw [linesOf_term hb3]
    rw [show (c :: cs) ++ (" = ").data ++ t2 ++ [ '\n' ] =
      ((c :: cs) ++ (" = ").data ++ t2) ++ [ '\n' ] from rfl]
    rw [linesOf_term hb4]
    rfl
  rw [hlines]
  have hcmH : commentMatch (headerText ts) = true := by
    rw [show headerText ts = '!' ::
      ((" GEOtop input file written by GEOtoPy ").data ++ ts ++ [ '\n' ])
      from rfl]
    exact commentMatch_bang (by simp)
  have hcmA : commentMatch (annotOw Fm (c :: cs) (.vint n1)) = true := by
    rw [show annotOw Fm (c :: cs) (.vint n1) = '!' ::
      ((" GEOtoPy: ").data ++ (c :: cs) ++ (" overwritten, was ").data ++
        intChars n1 ++ (".").data ++ [ '\n' ]) from by
      unfold annotOw
      simp [List.append_assoc]
      rfl]
    exact commentMatch_bang (by simp)
  have hcm3 : commentMatch ((c :: cs) ++ (" = ").data ++ intChars m ++
      [ '\n' ]) = false := by
    rw [show (c :: cs) ++ (" = ").data ++ intChars m ++ [ '\n' ] =
      c :: (cs ++ (" = ").data ++ intChars m ++ [ '\n' ]) from by simp]
    exact commentMatch_setting hc
  have hclm : ((intChars m).dropWhile isSpaceA).takeWhile neNl =
      intChars m :=
    value_clean (fun c0 h0 => intChars_not_space (head?_mem h0))
      (fun hmem => (intChars_ne_nl hmem) rfl)
  have hm3 : settingMatch ((c :: cs) ++ (" = ").data ++ intChars m ++
      [ '\n' ]) = some (c :: cs, intChars m) := by
    rw [settingMatch_mk hc hcs, hclm]
  have hr3 : read_setting Fm kw ((c :: cs) ++ (" = ").data ++ intChars m ++
      [ '\n' ]) = .ok (c :: cs, .vint m) :=
    read_setting_int Fm hm3 hlk (pyInt_intChars m)
  unfold read_settings
  rw [rsAux_comment Fm kw _ _ hcmH, rsAux_comment Fm kw _ _ hcmA,
    rsAux_ok Fm _ _ hcm3 hr3, rsAux_ok Fm _ _ hcm2 hr2]
  simp [read_settingsAux, upsertA, lookupA]

end GTP

namespace GTP

/-- C10, witness: the duplicate-key behavior at a concrete file with two
lines setting A, an override A to 3, and the concrete patched output;
the parse of the patched file still gives the old value of the second
occurrence. -/
theorem C10_witness :
    patch_inpts_file intFloat [(("A").data, tInt)]
        [(("A").data, GValue.vint 3)] true (("TS").data)
        [("A = 1\n").data, ("A = 2\n").data] =
      ((("! GEOtop input file written by GEOtoPy TS\n").data ++
        ("! GEOtoPy: A overwritten, was 1.\n").data ++
        ("A = 3\n").data ++ ("A = 2\n").data), none) ∧
    lookupA (read_settings intFloat [(("A").data, tInt)] (linesOf
      (patch_inpts_file intFloat [(("A").data, tInt)]
        [(("A").data, GValue.vint 3)] true (("TS").data)
        [("A = 1\n").data, ("A = 2\n").data]).1)) (("A").data) =
      some (GValue.vint 2) := by
  have h := C10_thm Int intFloat [(("A").data, tInt)] (("TS").data)
    'A' [] (("1").data) (("2").data) 1 2 3 (by decide) (by decide)
    (by decide) (by decide) (by decide) (by decide) (by decide) (by decide)
    (by decide)
  exact ⟨h.1.trans (by decide), h.2⟩

end GTP

namespace GTP

variable {F : Type}

theorem commentMatch_space {c : Char} {r : List Char}
    (h : isSpaceA c = true) : commentMatch (c :: r) = true := by
  rw [commentMatch_cons]
  simp [h]

theorem splitOnChar_sublist {sep : Char} : ∀ {cs tok : List Char},
    tok ∈ splitOnChar sep cs → ∀ {c0 : Char}, c0 ∈ tok → c0 ∈ cs := by
  intro cs
  induction cs with
  | nil =>
    intro tok htok c0 hc0
    simp [splitOnChar] at htok
    subst htok
    simp at hc0
  | cons c cs' ih =>
    intro tok htok c0 hc0
    unfold splitOnChar at htok
    by_cases hc : c = sep
    · rw [if_pos hc] at htok
      rcases List.mem_cons.mp htok with rfl | htok
      · simp at hc0
      · exact List.mem_cons_of_mem c (ih htok hc0)
    · rw [if_neg hc] at htok
      cases hsp : splitOnChar sep cs' with
      | nil => exact absurd hsp (splitOnChar_ne cs')
      | cons g gs =>
        rw [hsp] at htok
        rcases List.mem_cons.mp htok with rfl | htok
        · rcases List.mem_cons.mp hc0 with rfl | hc0
          · simp
          · exact List.mem_cons_of_mem c (ih (by rw [hsp]; simp) hc0)
        · exact List.mem_cons_of_mem c
            (ih (by rw [hsp]; exact List.mem_cons_of_mem g htok) hc0)

theorem parseFloats_err_shape {Fm : FloatModel F} : ∀ {ts : List (List Char)}
    {e : List Char}, parseFloats Fm ts = .err e →
    ∃ tok ∈ ts, e = msgFloatErr tok := by
  intro ts
  induction ts with
  | nil => intro e h; simp [parseFloats] at h
  | cons t ts' ih =>
    intro e h
    conv at h => rw [parseFloats]
    cases hp : Fm.parse t with
    | none =>
      rw [hp] at h
      injection h with h2
      exact ⟨t, by simp, h2.symm⟩
    | some x =>
      rw [hp] at h
      cases hrec : parseFloats Fm ts' with
      | ok xs => rw [hrec] at h; simp at h
      | err e2 =>
        rw [hrec] at h
        injection h with h2
        obtain ⟨tok, htok, he2⟩ := ih hrec
        exact ⟨tok, by simp [htok], by rw [← h2, he2]⟩

theorem settingMatch_no_nl {l k t : List Char}
    (hm : settingMatch l = some (k, t)) : '\n' ∉ k ∧ '\n' ∉ t := by
  unfold settingMatch at hm
  cases hd : l.dropWhile isSpaceA with
  | nil => rw [hd] at hm; simp at hm
  | cons c r1 =>
    rw [hd] at hm
    simp only [] at hm
    by_cases hc : isUpperA c = true
    · rw [if_pos hc] at hm
      cases hd2 : (r1.dropWhile isWordA).dropWhile isSpaceA with
      | nil => rw [hd2] at hm; simp at hm
      | cons c2 r3 =>
        rw [hd2] at hm
        simp only [] at hm
        by_cases hc2 : c2 = '='
        · rw [if_pos hc2] at hm
          have hinj := Option.some.inj hm
          have hk : c :: r1.takeWhile isWordA = k :=
            congrArg Prod.fst hinj
          have ht : (r3.dropWhile isSpaceA).takeWhile neNl = t :=
            congrArg Prod.snd hinj
          constructor
          · rw [← hk]
            intro hmem
            rcases List.mem_cons.mp hmem with he | hmem
            · exact upper_ne_nl hc he.symm
            · exact word_ne_nl (List.mem_takeWhile_imp hmem) rfl
          · rw [← ht]
            intro hmem
            have := List.mem_takeWhile_imp hmem
            simp [neNl] at this
        · rw [if_neg hc2] at hm; simp at hm
    · rw [if_neg hc] at hm; simp at hm

theorem no_nl_quoted {pre t : List Char} (hpre : '\n' ∉ pre)
    (ht : '\n' ∉ t) : '\n' ∉ (pre ++ squote :: (t ++ [squote])) := by
  intro hmem
  rcases List.mem_append.mp hmem with hmem | hmem
  · exact hpre hmem
  · rcases List.mem_cons.mp hmem with he | hmem
    · exact absurd he.symm (by decide)
    · rcases List.mem_append.mp hmem with hmem | hmem
      · exact ht hmem
      · simp at hmem
        exact absurd hmem.symm (by decide)

/-- Shape of the message of any error read raises: either it embeds the
whole offending line followed by the fixed tail, or it contains no
newline at all. -/
theorem read_setting_err_shape {Fm : FloatModel F} {kw : Schema}
    {l e : List Char} (he : read_setting Fm kw l = .err e) :
    e = l ++ (" is not a valid setting.").data ∨ '\n' ∉ e := by
  unfold read_setting at he
  cases hm : settingMatch l with
  | none =>
    rw [hm] at he
    injection he with h2
    exact Or.inl h2.symm
  | some kt =>
    obtain ⟨k, t⟩ := kt
    rw [hm] at he
    simp only [] at he
    obtain ⟨hknl, htnl⟩ := settingMatch_no_nl hm
    right
    cases hlk : lookupA kw k with
    | none =>
      rw [hlk] at he
      injection he with h2
      rw [← h2]
      intro hmem
      rcases List.mem_append.mp hmem with hmem | hmem
      · rcases List.mem_append.mp hmem with hmem | hmem
        · simp at hmem
        · exact hknl hmem
      · simp at hmem
    | some tag =>
      rw [hlk] at he
      simp only [] at he
      split_ifs at he with h1 h2 h3 h4 h5
      · cases hp : Fm.parse t with
        | some x => rw [hp] at he; simp at he
        | none =>
          rw [hp] at he
          injection he with h6
          rw [← h6]
          exact no_nl_quoted (by decide) htnl
      · cases hp : parseFloats Fm (splitOnChar ',' t) with
        | ok xs => rw [hp] at he; simp at he
        | err e2 =>
          rw [hp] at he
          injection he with h6
          obtain ⟨tok, htok, he2⟩ := parseFloats_err_shape hp
          rw [← h6, he2]
          refine no_nl_quoted (by decide) ?_
          intro hmem
          exact htnl (splitOnChar_sublist htok hmem)
      · cases hp : pyInt t with
        | some n => rw [hp] at he; simp at he
        | none =>
          rw [hp] at he
          injection he with h6
          rw [← h6]
          exact no_nl_quoted (by decide) htnl
      · cases hp : pyInt t with
        | some n => rw [hp] at he; simp at he
        | none =>
          rw [hp] at he
          injection he with h6
          rw [← h6]
          exact no_nl_quoted (by decide) htnl

end GTP

namespace GTP

variable {F : Type}

theorem processLine_nil (Fm : FloatModel F) (kw : Schema) (ann : Bool)
    (l : List Char) :
    processLine Fm kw ann l [] = (l, ([] : List (List Char × GValue F))) ∨
    (∃ e, commentMatch l = false ∧ read_setting Fm kw l = .err e ∧
      processLine Fm kw ann l [] = ((if ann then annotLine e else []), [])) := by
  by_cases hcm : commentMatch l = true
  · exact Or.inl (processLine_comment Fm kw ann [] hcm)
  · have hcm2 : commentMatch l = false := by simpa using hcm
    cases hr : read_setting Fm kw l with
    | ok kv =>
      obtain ⟨k, v⟩ := kv
      exact Or.inl (processLine_absent Fm ann hcm2 hr rfl)
    | err e => exact Or.inr ⟨e, hcm2, rfl, processLine_err Fm ann [] hcm2 hr⟩

theorem stable_annot (Fm : FloatModel F) (kw : Schema) (ann : Bool)
    {e : List Char} (hen : '\n' ∉ e) :
    patchLines Fm kw ann (linesOf (annotLine e)) [] = (annotLine e, []) := by
  have hshape : annotLine e = (("! GEOtoPy: ").data ++ e) ++ [ '\n' ] := rfl
  have hnl : '\n' ∉ ("! GEOtoPy: ").data ++ e := by
    intro hmem
    rcases List.mem_append.mp hmem with hmem | hmem
    · simp at hmem
    · exact hen hmem
  have hcm : commentMatch ((("! GEOtoPy: ").data ++ e) ++ [ '\n' ]) =
      true := by
    rw [show (("! GEOtoPy: ").data ++ e) ++ [ '\n' ] =
      '!' :: (((" GEOtoPy: ").data ++ e) ++ [ '\n' ]) from rfl]
    exact commentMatch_bang (by simp)
  rw [hshape, linesOf_term hnl, patchLines_cons,
    processLine_comment Fm kw ann [] hcm, patchLines_nil]
  simp

theorem stable_annot2 (Fm : FloatModel F) (kw : Schema) (ann : Bool)
    {b : List Char} (hb : '\n' ∉ b) :
    patchLines Fm kw ann (linesOf (annotLine
        ((b ++ [ '\n' ]) ++ (" is not a valid setting.").data))) [] =
      (annotLine ((b ++ [ '\n' ]) ++ (" is not a valid setting.").data),
        []) := by
  have hshape : annotLine ((b ++ [ '\n' ]) ++
      (" is not a valid setting.").data) =
      (("! GEOtoPy: ").data ++ b) ++
        '\n' :: ((" is not a valid setting.").data ++ [ '\n' ]) := by
    unfold annotLine
    simp
  have h1nl : '\n' ∉ ("! GEOtoPy: ").data ++ b := by
    intro hmem
    rcases List.mem_append.mp hmem with hmem | hmem
    · simp at hmem
    · exact hb hmem
  have hcm1 : commentMatch ((("! GEOtoPy: ").data ++ b) ++ [ '\n' ]) =
      true := by
    rw [show (("! GEOtoPy: ").data ++ b) ++ [ '\n' ] =
      '!' :: (((" GEOtoPy: ").data ++ b) ++ [ '\n' ]) from rfl]
    exact commentMatch_bang (by simp)
  have hcm2 : commentMatch ((" is not a valid setting.").data ++ [ '\n' ])
      = true := by
    rw [show ((" is not a valid setting.").data ++ [ '\n' ] : List Char) =
      ' ' :: (("is not a valid setting.").data ++ [ '\n' ]) from rfl]
    exact commentMatch_space (by decide)
  have hterm : '\n' ∉ (" is not a valid setting.").data := by decide
  rw [hshape, linesOf_nl_split h1nl, linesOf_term hterm, patchLines_cons,
    processLine_comment Fm kw ann [] hcm1, patchLines_cons,
    processLine_comment Fm kw ann [] hcm2, patchLines_nil]
  simp

theorem stable_line (Fm : FloatModel F) (kw : Schema) (ann : Bool)
    {l : List Char} (hl : wfLine l) :
    patchLines Fm kw ann (linesOf (processLine Fm kw ann l []).1) [] =
      ((processLine Fm kw ann l []).1, []) ∧
    (termLine l → ((processLine Fm kw ann l []).1 = [] ∨
      ∃ T0, (processLine Fm kw ann l []).1 = T0 ++ [ '\n' ])) := by
  rcases processLine_nil Fm kw ann l with hp | ⟨e, hcm, hr, hp⟩
  · rw [hp]
    constructor
    · have hll : linesOf l = [l] := by
        rcases hl with ⟨b, hbn, rfl⟩ | ⟨hn, hne⟩
        · exact linesOf_term hbn
        · exact linesOf_no_nl hn hne
      rw [hll, patchLines_cons, hp, patchLines_nil]
      simp
    · rintro ⟨b, hbn, hbe⟩
      exact Or.inr ⟨b, hbe⟩
  · rw [hp]
    cases ann with
    | false =>
      constructor
      · simp [linesOf_nil, patchLines_nil]
      · intro _
        exact Or.inl (by simp)
    | true =>
      simp only [if_true]
      constructor
      · rcases read_setting_err_shape hr with hsh | hsh
        · rcases hl with ⟨b, hbn, rfl⟩ | ⟨hn, hne⟩
          · rw [hsh]
            exact stable_annot2 Fm kw true hbn
          · have henl : '\n' ∉ e := by
              rw [hsh]
              intro hmem
              rcases List.mem_append.mp hmem with hmem | hmem
              · exact hn hmem
              · simp at hmem
            exact stable_annot Fm kw true henl
        · exact stable_annot Fm kw true hsh
      · intro _
        exact Or.inr ⟨("! GEOtoPy: ").data ++ e, rfl⟩

theorem stable_body (Fm : FloatModel F) (kw : Schema) (ann : Bool) :
    ∀ L, goodLines L →
    (patchLines Fm kw ann L []).2 = [] ∧
    patchLines Fm kw ann (linesOf (patchLines Fm kw ann L []).1) [] =
      ((patchLines Fm kw ann L []).1, []) := by
  intro L
  induction L with
  | nil =>
    intro _
    exact ⟨rfl, by simp [patchLines_nil, linesOf_nil]⟩
  | cons l ls ih =>
    intro hg
    have hsnd : (processLine Fm kw ann l []).2 = [] := by
      rcases processLine_nil Fm kw ann l with hp | ⟨e, _, _, hp⟩ <;> rw [hp]
    have hcons : patchLines Fm kw ann (l :: ls) [] =
        ((processLine Fm kw ann l []).1 ++ (patchLines Fm kw ann ls []).1,
         (patchLines Fm kw ann ls []).2) := by
      rw [patchLines_cons, hsnd]
    rcases hg with ⟨hterm, hgls⟩ | ⟨rfl, hwf⟩
    · obtain ⟨ih1, ih2⟩ := ih hgls
      obtain ⟨hs1, hs2⟩ := stable_line Fm kw ann (Or.inl hterm)
      refine ⟨by rw [hcons]; exact ih1, ?_⟩
      rw [hcons]
      rw [linesOf_append (hs2 hterm), patchLines_append, hs1]
      simp only []
      rw [ih2]
    · obtain ⟨hs1, hs2⟩ := stable_line Fm kw ann hwf
      refine ⟨by rw [hcons]; rfl, ?_⟩
      rw [hcons]
      simp only [patchLines_nil, List.append_nil]
      exact hs1

end GTP

namespace GTP

/-- C8, counterexample: patching the output of a first patch (same empty
overrides, same formatted timestamp) does not reproduce it: the second
pass writes a fresh header and then copies the first header as an
ordinary comment line, so the output grows by one header line rather
than being byte-identical up to the timestamp. -/
theorem C8_cex :
    (patch_inpts_file intFloat [(("A").data, tInt)] [] true (("TS").data)
      (linesOf (patch_inpts_file intFloat [(("A").data, tInt)] [] true
        (("TS").data) (linesOf (("A = 1\n").data))).1)).1 ≠
    (patch_inpts_file intFloat [(("A").data, tInt)] [] true (("TS").data)
      (linesOf (("A = 1\n").data))).1 := by decide

/-- C8, amended: patching with an empty override mapping is stable after
the first pass up to header accumulation: a second patch of the first
output writes exactly the new header followed by the first output
unchanged, and raises nothing; every line of the first output is
reproduced verbatim by the second pass. -/
theorem C8_amended : ∀ (F : Type) (Fm : FloatModel F) (kw : Schema)
    (ann : Bool) (ts1 ts2 T : List Char), '\n' ∉ ts1 →
    patch_inpts_file Fm kw [] ann ts2
        (linesOf (patch_inpts_file Fm kw [] ann ts1 (linesOf T)).1) =
      (headerText ts2 ++ (patch_inpts_file Fm kw [] ann ts1 (linesOf T)).1,
       none) := by
  intro F Fm kw ann ts1 ts2 T hts
  obtain ⟨hb1, hb2⟩ := stable_body Fm kw ann (linesOf T) (goodLines_linesOf T)
  have hout1 : patch_inpts_file Fm kw [] ann ts1 (linesOf T) =
      (headerText ts1 ++ (patchLines Fm kw ann (linesOf T) []).1, none) :=
    patch_rem_nil Fm kw [] ann ts1 (linesOf T) hb1
  rw [hout1]
  simp only []
  have hhd_nl : '\n' ∉ ("! GEOtop input file written by GEOtoPy ").data
      ++ ts1 := by
    intro hmem
    rcases List.mem_append.mp hmem with hmem | hmem
    · simp at hmem
    · exact hts hmem
  have hsplit : linesOf (headerText ts1 ++
      (patchLines Fm kw ann (linesOf T) []).1) =
      headerText ts1 :: linesOf (patchLines Fm kw ann (linesOf T) []).1 := by
    rw [linesOf_append (Or.inr
      ⟨("! GEOtop input file written by GEOtoPy ").data ++ ts1,
        show headerText ts1 =
          (("! GEOtop input file written by GEOtoPy ").data ++ ts1) ++
            [ '\n' ] from rfl⟩)]
    rw [show headerText ts1 =
      (("! GEOtop input file written by GEOtoPy ").data ++ ts1) ++ [ '\n' ]
      from rfl]
    rw [linesOf_term hhd_nl]
    rfl
  rw [hsplit]
  have hcmh : commentMatch (headerText ts1) = true := by
    rw [show headerText ts1 = '!' ::
      ((" GEOtop input file written by GEOtoPy ").data ++ ts1 ++ [ '\n' ])
      from rfl]
    exact commentMatch_bang (by simp)
  have hbody2 : patchLines Fm kw ann
      (headerText ts1 :: linesOf (patchLines Fm kw ann (linesOf T) []).1)
      [] = (headerText ts1 ++ (patchLines Fm kw ann (linesOf T) []).1,
        []) := by
    rw [patchLines_cons, processLine_comment Fm kw ann [] hcmh]
    simp only []
    rw [hb2]
  rw [patch_rem_nil Fm kw [] ann ts2 _ (by rw [hbody2]), hbody2]

/-- C8, witness: the amended claim at a concrete file containing a
setting line, a comment line and a malformed line. -/
theorem C8_witness :
    patch_inpts_file intFloat [(("A").data, tInt)] [] true (("T2").data)
        (linesOf (patch_inpts_file intFloat [(("A").data, tInt)] [] true
          (("T1").data) (linesOf (("A = 1\n! c\nZZZ\n").data))).1) =
      (headerText (("T2").data) ++
        (patch_inpts_file intFloat [(("A").data, tInt)] [] true
          (("T1").data) (linesOf (("A = 1\n! c\nZZZ\n").data))).1,
       none) :=
  C8_amended Int intFloat [(("A").data, tInt)] true (("T1").data)
    (("T2").data) (("A = 1\n! c\nZZZ\n").data) (by decide)

end GTP
